import Mathlib

/-!
Verification development for the fqn-renamer match-aggregation, range-tracking
and substitution engine.  Rust strings are modelled as `List Char` with
byte offsets modelled as character offsets; `Option` models Rust's `Option`,
and fallible filesystem operations are modelled by threading an association
list filesystem state.
-/

set_option maxRecDepth 4000

/-! ## Basic helpers over `List Char` -/

/-- The half-open range `[start, stop)` of a submatch, mirroring Rust's
`Range<usize>` (the field `end` is renamed `stop`). -/
structure SubRange where
  start : Nat
  stop : Nat
deriving DecidableEq, Repr

/-- Slice `v[s..e]` of a list, mirroring Rust's `&value[s..e]`. -/
def sliceL (v : List Char) (s e : Nat) : List Char :=
  (v.take e).drop s

/-- `hay.find(needle)` for substring search, mirroring Rust's `str::find`:
the first index at which `needle` occurs in `hay`, if any. -/
def findSub (hay needle : List Char) : Option Nat :=
  if needle.isPrefixOf hay then some 0
  else
    match hay with
    | [] => none
    | _ :: t => (findSub t needle).map (· + 1)

/-! ## `matched_file.rs`: `Line` and `MatchedFile` -/

/-- One line of a matched file: `Line { num, value, submatches }`. -/
structure Line where
  num : Nat
  value : List Char
  submatches : List SubRange
deriving DecidableEq, Repr

/-- `check_invariants` part 1: no submatch is empty. -/
def noZeroLen (l : List SubRange) : Bool :=
  l.all (fun sm => sm.start < sm.stop)

/-- `check_invariants` part 2: consecutive submatches do not overlap
(`a.end <= b.start` over `tuple_windows`). -/
def noOverlap : List SubRange → Bool
  | a :: b :: rest => (a.stop ≤ b.start : Bool) && noOverlap (b :: rest)
  | _ => true

/-- The submatch invariant of the data model, strengthened with the bound
that every range lies inside the line's text (which the Rust code relies on
for slicing): starting from offset `pos`, ranges are non-empty, sorted,
non-overlapping and end within `len`. -/
def validFrom (len : Nat) : Nat → List SubRange → Bool
  | pos, [] => pos ≤ len
  | pos, sm :: rest => (pos ≤ sm.start : Bool) && (sm.start < sm.stop : Bool) && validFrom len sm.stop rest

/-- A `Line` satisfying the submatch invariant. -/
def Line.valid (l : Line) : Bool :=
  validFrom l.value.length 0 l.submatches

/-- The span decomposition produced by `LinePartsIter`: starting at `pos`,
emit the gap up to the next submatch (when non-adjacent), the submatch
span itself, and continue after it; with no submatches left, emit the
remainder unless the position is already at the end. -/
def lineParts (v : List Char) : Nat → List SubRange → List (Bool × List Char)
  | pos, [] =>
      if pos = v.length then [] else [(false, v.drop pos)]
  | pos, sm :: rest =>
      if sm.start = pos then
        (true, sliceL v sm.start sm.stop) :: lineParts v sm.stop rest
      else
        (false, sliceL v pos sm.start) :: (true, sliceL v sm.start sm.stop) :: lineParts v sm.stop rest

/-- `Line::iter` (via `LinePartsIter::from_line`). -/
def Line.iter (l : Line) : List (Bool × List Char) :=
  lineParts l.value 0 l.submatches

/-- One step of `Line::replace`'s loop: accumulate new text, position and
submatches over a span of `iter`. -/
def replaceStep (replacer : List Char → List Char)
    (acc : List Char × Nat × List SubRange) (p : Bool × List Char) :
    List Char × Nat × List SubRange :=
  match p with
  | (true, part) =>
      let replaced := replacer part
      if replaced.isEmpty then acc
      else (acc.1 ++ replaced, acc.2.1 + replaced.length,
            acc.2.2 ++ [⟨acc.2.1, acc.2.1 + replaced.length⟩])
  | (false, part) => (acc.1 ++ part, acc.2.1 + part.length, acc.2.2)

/-- `Line::replace`: rebuild the line text span by span, dropping submatches
whose replacement is empty. -/
def Line.replace (l : Line) (replacer : List Char → List Char) : Line :=
  let r := l.iter.foldl (replaceStep replacer) ([], 0, [])
  ⟨l.num, r.1, r.2.2⟩

/-- `Line::adjust_submatches`: re-anchor each submatch by the range returned
from the adjuster (relative to the submatch's own start) and retain only
non-empty results (`retain_mut`). -/
def Line.adjustSubmatches (l : Line) (adjuster : List Char → SubRange) : Line :=
  { l with
    submatches := l.submatches.filterMap (fun sm =>
      let nr := adjuster (sliceL l.value sm.start sm.stop)
      let s2 := sm.start + nr.start
      let e2 := s2 + (nr.stop - nr.start)
      if s2 < e2 then some ⟨s2, e2⟩ else none) }

/-- `MatchedFile { file_path, lines }`. -/
structure MatchedFile where
  file_path : List Char
  lines : List Line
deriving DecidableEq, Repr

/-- `MatchedFile::replace`: apply `Line::replace` to every line. -/
def MatchedFile.replace (mf : MatchedFile) (replacer : List Char → List Char) :
    MatchedFile :=
  ⟨mf.file_path, mf.lines.map (fun l => l.replace replacer)⟩

/-- Strict alternation of span kinds: no two consecutive spans agree on
`is_match`. -/
def alternatingSpans : List (Bool × List Char) → Bool
  | [] => true
  | [_] => true
  | a :: b :: rest => (a.1 != b.1) && alternatingSpans (b :: rest)

/-- No two consecutive unmatched gap spans. -/
def noAdjacentGaps : List (Bool × List Char) → Bool
  | [] => true
  | [_] => true
  | a :: b :: rest => (a.1 || b.1) && noAdjacentGaps (b :: rest)

/-- Concrete line used to exercise the span decomposition. -/
def lineC5w : Line :=
  ⟨0, "0123456789".data, [⟨3, 6⟩, ⟨8, 10⟩]⟩

/-- Concrete line (from the repository's own tests) with two adjacent
submatches, whose span decomposition does not strictly alternate. -/
def lineC5alt : Line :=
  ⟨0, "foo bar baz".data, [⟨0, 4⟩, ⟨4, 11⟩]⟩

/-- Spec-side description of the text built by `replace`: unmatched gap text
verbatim, `f` applied to each matched span, concatenated in span order. -/
def replacedText (f : List Char → List Char)
    (parts : List (Bool × List Char)) : List Char :=
  (parts.map (fun p => if p.1 then f p.2 else p.2)).flatten

/-- Spec-side description of the submatch list built by `replace`: walk the
spans accumulating byte offsets in the new text; submatches with an empty
replacement are omitted entirely, the others cover exactly their emitted
replacement text. -/
def replacedSubs (f : List Char → List Char) :
    Nat → List (Bool × List Char) → List SubRange
  | _, [] => []
  | pos, (false, t) :: rest => replacedSubs f (pos + t.length) rest
  | pos, (true, t) :: rest =>
      if (f t).isEmpty then replacedSubs f pos rest
      else ⟨pos, pos + (f t).length⟩ :: replacedSubs f (pos + (f t).length) rest

/-- Concrete line of the replace scenario: `"0123456789"` with one submatch
`2..6`. -/
def lineC3a : Line :=
  ⟨0, "0123456789".data, [⟨2, 6⟩]⟩

/-- Concrete replacer of the replace scenario: `"2345" -> "."`. -/
def replC3a : List Char → List Char :=
  fun s => if s = "2345".data then ".".data else s

/-- Spec-side description of one `adjust_submatches` step: interpret the
adjuster's result as a range relative to the submatch's own start, re-anchor
to `start + new.start .. start + new.start + len(new)`, and drop the
submatch when the resulting range is empty. -/
def reanchored (v : List Char) (f : List Char → SubRange) (sm : SubRange) :
    Option SubRange :=
  let nr := f (sliceL v sm.start sm.stop)
  let ns := sm.start + nr.start
  let ne := ns + (nr.stop - nr.start)
  if ns = ne then none else some ⟨ns, ne⟩

/-- Concrete line used to exercise `adjust_submatches`. -/
def lineC6w : Line :=
  ⟨0, "foo bar baz".data, [⟨0, 4⟩, ⟨4, 11⟩]⟩

/-- An adjuster that always returns an empty relative range. -/
def adjC6zero : List Char → SubRange :=
  fun _ => ⟨0, 0⟩

/-! ## `fqcn.rs`: the FQCN parser

`Fqcn::new` matches the anchored pattern
`^(([a-z0-9][a-z0-9\.]+)+\.)?([A-Z][\w]*)?$` and requires both capture
group 2 (the last iteration of the inner group) and capture group 3.  The
matcher below implements the leftmost-first greedy backtracking semantics of
this pattern directly: candidates for the inner `[a-z0-9][a-z0-9\.]+` atom
are enumerated longest-first, the `+` loop prefers a further iteration over
exiting, and group 2 records the last iteration.  `\w` is modelled as
`[A-Za-z0-9_]`. -/

/-- The character class `[a-z0-9]`. -/
def isLowerDigit (c : Char) : Bool :=
  ('a' ≤ c && c ≤ 'z') || ('0' ≤ c && c ≤ '9')

/-- The character class `[a-z0-9\.]`. -/
def isDotLower (c : Char) : Bool :=
  isLowerDigit c || c == '.'

/-- The character class `[A-Z]`. -/
def isUpperAZ (c : Char) : Bool :=
  ('A' ≤ c && c ≤ 'Z')

/-- The character class `[\w]` (ASCII). -/
def isWordChar (c : Char) : Bool :=
  isUpperAZ c || isLowerDigit c || c == '_'

/-- Length of the maximal prefix of `[a-z0-9\.]` characters. -/
def dotLowerRun : List Char → Nat
  | [] => 0
  | c :: cs => if isDotLower c then dotLowerRun cs + 1 else 0

/-- End positions reachable by one greedy `[a-z0-9][a-z0-9\.]+` atom
starting at `i`, longest first (the backtracking order). -/
def sCandidates (s : List Char) (i : Nat) : List Nat :=
  if h : i < s.length then
    if isLowerDigit s[i] then
      (List.range' (i + 2) (i + 1 + dotLowerRun (s.drop (i + 1)) - (i + 1))).reverse
    else []
  else []

/-- Fuelled enumeration of the `(...)+` loop's states in backtracking
priority order: each candidate is `(exit position, start of the last
iteration)`; after an atom ending at `j` the loop prefers further
iterations (`plusCandsF s fuel j`) over exiting at `j`. -/
def plusCandsF (s : List Char) : Nat → Nat → List (Nat × Nat)
  | 0, _ => []
  | fuel + 1, i =>
      (sCandidates s i).flatMap (fun j => plusCandsF s fuel j ++ [(j, i)])

/-- The `(...)+` candidates from position `i` (fuel `s.length + 1` always
suffices because each atom consumes at least two characters). -/
def plusCands (s : List Char) (i : Nat) : List (Nat × Nat) :=
  plusCandsF s (s.length + 1) i

/-- Candidates for group 1 `(([a-z0-9][a-z0-9\.]+)+\.)`: a `+`-loop exit
followed by a literal dot; the pair keeps `(dot position, group-2 start)`. -/
def aCands (s : List Char) : List (Nat × Nat) :=
  (plusCands s 0).filterMap
    (fun c => if s[c.1]? = some '.' then some c else none)

/-- Match `([A-Z][\w]*)?$` at position `p`: `some none` when the optional
group is skipped at end of input, `some (some range)` when it matches to the
end, `none` when the remainder cannot be consumed. -/
def tailCaps (s : List Char) (p : Nat) : Option (Option (Nat × Nat)) :=
  match s.drop p with
  | [] => some none
  | c :: cs =>
      if isUpperAZ c && cs.all isWordChar then some (some (p, s.length))
      else none

/-- `re.captures(value)`: try group 1's candidates in backtracking order,
each followed by the tail pattern; if none works, group 1 is skipped.
Returns `(group 2, group 3)` on a match. -/
def fqcnCaptures (s : List Char) :
    Option (Option (Nat × Nat) × Option (Nat × Nat)) :=
  match (aCands s).findSome?
      (fun c => (tailCaps s (c.1 + 1)).map (fun g3 => (some (c.2, c.1), g3))) with
  | some r => some r
  | none => (tailCaps s 0).map (fun g3 => (none, g3))

/-- The `Fqcn` value: the input plus the ranges of package and identifier. -/
structure Fqcn where
  value : List Char
  packageRange : SubRange
  identRange : SubRange
deriving DecidableEq, Repr

/-- `Fqcn::new`: run the regex; `captures.get(2)` and `captures.get(3)`
must both be present (the two `?` operators), otherwise `None`. -/
def Fqcn.new (s : List Char) : Option Fqcn :=
  match fqcnCaptures s with
  | some (some g2, some g3) => some ⟨s, ⟨g2.1, g2.2⟩, ⟨g3.1, g3.2⟩⟩
  | _ => none

/-- `Fqcn::package`. -/
def Fqcn.package (f : Fqcn) : List Char :=
  sliceL f.value f.packageRange.start f.packageRange.stop

/-- `Fqcn::ident`. -/
def Fqcn.ident (f : Fqcn) : List Char :=
  sliceL f.value f.identRange.start f.identRange.stop

/-- Spec-side grammar atom: a lowercase segment `[a-z0-9][a-z0-9.]+`. -/
def isSegB (w : List Char) : Bool :=
  match w with
  | [] => false
  | c :: rest => isLowerDigit c && !rest.isEmpty && rest.all isDotLower

/-- Spec-side grammar atom: a capitalized identifier `[A-Z][\w]*`. -/
def isUpperIdentB (w : List Char) : Bool :=
  match w with
  | [] => false
  | c :: rest => isUpperAZ c && rest.all isWordChar

/-- Spec-side grammar fragment `(lowercase-segment '.')+`. -/
inductive SegDotPlus : List Char → Prop where
  | one (w : List Char) : isSegB w = true → SegDotPlus (w ++ ['.'])
  | cons (w rest : List Char) : isSegB w = true → SegDotPlus rest →
      SegDotPlus (w ++ '.' :: rest)

/-- Spec-side FQCN grammar `((lowercase-segment '.')+)? (UppercaseIdent)?`,
with both the package prefix and the capitalized identifier optional. -/
def fqcnGrammar (s : List Char) : Prop :=
  ∃ p i, s = p ++ i ∧ (p = [] ∨ SegDotPlus p)
    ∧ (i = [] ∨ isUpperIdentB i = true)

/-- The grammar restricted to values where both parts are present. -/
def fqcnGrammarBoth (s : List Char) : Prop :=
  ∃ p i, s = p ++ i ∧ SegDotPlus p ∧ isUpperIdentB i = true

/-- The parsed `Fqcn` for `"foo.bar.Baz"`: package `foo.bar`, ident `Baz`. -/
def fqC9w : Fqcn :=
  ⟨"foo.bar.Baz".data, ⟨0, 7⟩, ⟨8, 11⟩⟩

/-! ## `fqcn_processor.rs`: the FQCN classifier -/

/-- The `PACKAGE` marker `"package "`. -/
def packageStr : List Char := "package ".data

/-- The `IMPORT` marker `"import "`. -/
def importStr : List Char := "import ".data

/-- `str::contains` for substrings. -/
def containsSub (hay needle : List Char) : Bool :=
  (findSub hay needle).isSome

/-- The adjuster closure of `process_matched_file_fqcn` on one submatch
text, returning the new relative range together with the `saw_fqcn` and
`saw_ident` flags it sets: full value first, then package, then bare
identifier, else the whole submatch. -/
def fqcnAdjust (V P I t : List Char) : SubRange × Bool × Bool :=
  match findSub t V with
  | some idx => (⟨idx, idx + V.length⟩, true, false)
  | none =>
      match findSub t P with
      | some idx => (⟨idx, idx + P.length⟩, false, false)
      | none =>
          match findSub t I with
          | some idx => (⟨idx, idx + I.length⟩, false, true)
          | none => (⟨0, t.length⟩, false, false)

/-- `line.adjust_submatches` with the classifier's flag-setting closure:
fold over the submatches re-anchoring and retaining non-empty results as in
`adjust_submatches`, OR-ing the flags (the closure runs before the
emptiness check).  Returns the adjusted line, `saw_fqcn`, `saw_ident`. -/
def adjustLineFqcn (V P I : List Char) (l : Line) : Line × Bool × Bool :=
  let r := l.submatches.foldl
    (fun acc sm =>
      let t := sliceL l.value sm.start sm.stop
      let a := fqcnAdjust V P I t
      let s2 := sm.start + a.1.start
      let e2 := s2 + (a.1.stop - a.1.start)
      (acc.1 ++ (if s2 < e2 then [SubRange.mk s2 e2] else []),
       acc.2.1 || a.2.1, acc.2.2 || a.2.2))
    ([], false, false)
  (⟨l.num, l.value, r.1⟩, r.2.1, r.2.2)

/-- One file's pass of `process_matched_file_fqcn`: check each line for the
`import `/`package ` markers (in that if/else-if order), adjust its
submatches, and accumulate the four flags.  Returns the adjusted file and
`(saw_package, saw_import, saw_ident, saw_fqcn)`. -/
def processFileFqcn (V P I : List Char) (mf : MatchedFile) :
    MatchedFile × Bool × Bool × Bool × Bool :=
  let r := mf.lines.foldl
    (fun acc line =>
      let impHere := importStr.isPrefixOf line.value && containsSub line.value V
      let pkgHere := !impHere
        && (packageStr.isPrefixOf line.value && containsSub line.value P)
      let a := adjustLineFqcn V P I line
      (acc.1 ++ [a.1], acc.2.1 || pkgHere, acc.2.2.1 || impHere,
       acc.2.2.2.1 || a.2.2, acc.2.2.2.2 || a.2.1))
    ([], false, false, false, false)
  (⟨mf.file_path, r.1⟩, r.2)

/-- `process_matched_file_fqcn`: `retain_mut` keeps a file (with its lines
mutated by the adjuster) iff `saw_fqcn || saw_import || (saw_package &&
saw_ident)`. -/
def process_matched_file_fqcn (fqcn : Fqcn) (files : List MatchedFile) :
    List MatchedFile :=
  files.filterMap (fun mf =>
    let r := processFileFqcn fqcn.value fqcn.package fqcn.ident mf
    if r.2.2.2.2 || r.2.2.1 || (r.2.1 && r.2.2.2.1) then some r.1 else none)

/-- Spec-side: some submatch of the line contains the full FQCN value. -/
def lineSawFqcn (V : List Char) (l : Line) : Bool :=
  l.submatches.any
    (fun sm => (findSub (sliceL l.value sm.start sm.stop) V).isSome)

/-- Spec-side: some submatch yields an identifier-level (bare identifier)
match, i.e. contains the identifier but neither the full value nor the
package (the classifier's priority order). -/
def lineSawIdent (V P I : List Char) (l : Line) : Bool :=
  l.submatches.any (fun sm =>
    let t := sliceL l.value sm.start sm.stop
    !(findSub t V).isSome && !(findSub t P).isSome && (findSub t I).isSome)

/-- Spec-side per-file flag: some line's submatch contains the full value. -/
def fileSawFqcn (V : List Char) (mf : MatchedFile) : Bool :=
  mf.lines.any (lineSawFqcn V)

/-- Spec-side per-file flag: some line is an import of the full value. -/
def fileSawImport (V : List Char) (mf : MatchedFile) : Bool :=
  mf.lines.any
    (fun l => importStr.isPrefixOf l.value && containsSub l.value V)

/-- Spec-side per-file flag: some line is a package declaration containing
the package (and is not an import of the full value, per the else-if). -/
def fileSawPackage (V P : List Char) (mf : MatchedFile) : Bool :=
  mf.lines.any (fun l =>
    !(importStr.isPrefixOf l.value && containsSub l.value V)
    && (packageStr.isPrefixOf l.value && containsSub l.value P))

/-- Spec-side per-file flag: some line has an identifier-level match. -/
def fileSawIdent (V P I : List Char) (mf : MatchedFile) : Bool :=
  mf.lines.any (lineSawIdent V P I)

/-- The file with every line run through the classifier's adjuster. -/
def adjustedFile (V P I : List Char) (mf : MatchedFile) : MatchedFile :=
  ⟨mf.file_path, mf.lines.map (fun l => (adjustLineFqcn V P I l).1)⟩

/-- The claim's notion of package-or-import evidence on a line, following
the classifier's marking rules. -/
def linePkgOrImportEvidence (V P : List Char) (l : Line) : Bool :=
  (packageStr.isPrefixOf l.value && containsSub l.value P)
  || (importStr.isPrefixOf l.value && containsSub l.value V)

/-- The FQCN `foo.bar.Baz` as parsed by `Fqcn::new`. -/
def fqcnC1 : Fqcn :=
  ⟨"foo.bar.Baz".data, ⟨0, 7⟩, ⟨8, 11⟩⟩

/-- Scenario file that must be retained: a package declaration plus a bare
identifier reference. -/
def fileC1keep : MatchedFile :=
  ⟨"foo/bar/Baz.java".data,
   [⟨3, "package foo.bar".data, [⟨0, 15⟩]⟩,
    ⟨4, "class Baz {};".data, [⟨6, 9⟩]⟩]⟩

/-- Scenario file that must be discarded: an import of a different package
plus a bare identifier reference. -/
def fileC1drop : MatchedFile :=
  ⟨"foo/WrongBaz.java".data,
   [⟨2, "import com.other.Baz;".data, [⟨7, 20⟩]⟩,
    ⟨8, "Baz b;".data, [⟨0, 3⟩]⟩]⟩

/-- A file whose only signal is a full-FQCN substring hit on a plain code
line, with no package or import line at all. -/
def fileC1full : MatchedFile :=
  ⟨"A.java".data, [⟨0, "x foo.bar.Baz y".data, [⟨2, 13⟩]⟩]⟩

/-! ## `rg_worker.rs`: the streaming result parser

The worker loop reads arbitrary-sized chunks from the subprocess's standard
output into a growing text buffer; while not at end of stream it repeatedly
splits off the prefix up to and including the first newline and decodes it
as one record; at end of stream the whole remaining buffer is the final
record (when non-empty).  JSON decoding (`serde_json::from_str`) is
abstracted as a `decode` function on record strings. -/

/-- Extract all complete newline-terminated records from a buffer, as the
inner `'no_nl` loop does, returning them in order together with the
unterminated remainder. -/
def splitOnNl : List Char → List (List Char) × List Char
  | [] => ([], [])
  | c :: cs =>
      if c = '\n' then
        ([c] :: (splitOnNl cs).1, (splitOnNl cs).2)
      else
        match splitOnNl cs with
        | (cmd :: cmds, rest) => ((c :: cmd) :: cmds, rest)
        | ([], rest) => ([], c :: rest)

/-- The reader's state: the pending text buffer (`str_buf`) and the record
strings handed to `handle_command` so far. -/
structure StreamState where
  buf : List Char
  cmds : List (List Char)
deriving DecidableEq, Repr

/-- Process one non-empty read: append the chunk to the buffer and split
off every complete newline-terminated record. -/
def feedChunk (st : StreamState) (chunk : List Char) : StreamState :=
  ⟨(splitOnNl (st.buf ++ chunk)).2,
   st.cmds ++ (splitOnNl (st.buf ++ chunk)).1⟩

/-- The zero-byte read: the entire remaining buffer becomes the final
record if it is non-empty. -/
def flushStream (st : StreamState) : List (List Char) :=
  st.cmds ++ (if st.buf.isEmpty then [] else [st.buf])

/-- The record strings handed to `handle_command` over a whole run. -/
def streamCmds (chunks : List (List Char)) : List (List Char) :=
  flushStream (chunks.foldl feedChunk ⟨[], []⟩)

/-- A decoded record: the `type` tag and the payload fields the worker
reads. -/
inductive RgCommand : Type where
  | begin (path : List Char)
  | matchRec (lineNumber : Nat) (text : List Char) (submatches : List SubRange)
  | context (lineNumber : Nat) (text : List Char)
  | endRec
deriving DecidableEq, Repr

/-- `MatchedFileBuilder`: the in-progress file accumulator. -/
structure MatchedFileBuilder where
  file_path : List Char
  lines : List Line
deriving DecidableEq, Repr

/-- `handle_command` (with `push_context`): `begin` stores the path, `end`
publishes the built file and resets the builder (`mem::take`), `context`
and `match` append a line (line numbers arrive 1-indexed and are stored
0-indexed). -/
def handleCommand (st : MatchedFileBuilder × List MatchedFile)
    (cmd : RgCommand) : MatchedFileBuilder × List MatchedFile :=
  match cmd with
  | .begin path => (⟨path, st.1.lines⟩, st.2)
  | .endRec => (⟨[], []⟩, st.2 ++ [⟨st.1.file_path, st.1.lines⟩])
  | .context n t => (⟨st.1.file_path, st.1.lines ++ [⟨n - 1, t, []⟩]⟩, st.2)
  | .matchRec n t subs =>
      (⟨st.1.file_path, st.1.lines ++ [⟨n - 1, t, subs⟩]⟩, st.2)

/-- `worker_impl_factory`'s whole run over a sequence of reads: split the
byte stream into records, decode each, fold into the accumulator, and
return the published results. -/
def runWorker (decode : List Char → RgCommand)
    (chunks : List (List Char)) : List MatchedFile :=
  (((streamCmds chunks).map decode).foldl handleCommand (⟨[], []⟩, [])).2

/-- A concrete decoder for the three-record scenario. -/
def decodeC2 : List Char → RgCommand :=
  fun s =>
    if s = "B\n".data then .begin ("f.java".data)
    else if s = "M\n".data then .matchRec 1 ("x\n".data) [⟨0, 1⟩]
    else .endRec

/-- A concrete chunking of `"B\nM\nE\n"` with a boundary inside the middle
record. -/
def chunksC2 : List (List Char) :=
  ["B\nM".data, "\nE\n".data]

/-! ## File-system model for `App::execute_replacement` (app.rs) -/

def FsState : Type := List (List Char × List Char)

def fsGet : FsState → List Char → Option (List Char)
  | [], _ => none
  | (p, v) :: rest, q => if p = q then some v else fsGet rest q

def fsSet : FsState → List Char → List Char → FsState
  | [], q, v => [(q, v)]
  | (p, w) :: rest, q, v =>
      if p = q then (q, v) :: rest else (p, w) :: fsSet rest q v

def lineToChar : List Char → Nat → Nat
  | _, 0 => 0
  | [], _ + 1 => 0
  | c :: cs, n + 1 =>
      if c = '\n' then 1 + lineToChar cs n else 1 + lineToChar cs (n + 1)

def replaceLine (s : List Char) (n : Nat) (v : List Char) : List Char :=
  (s.take (lineToChar s n)) ++ v ++ (s.drop (lineToChar s (n + 1)))

def rewriteLines (ls : List Line) (s : List Char) : List Char × Nat :=
  ls.foldl
    (fun acc l => (replaceLine acc.1 l.num l.value, acc.2 + l.submatches.length))
    (s, 0)

def execute_replacement (fs : FsState) (mf : MatchedFile) : FsState × Option Nat :=
  match fsGet fs (mf.file_path ++ ".bak".data) with
  | some _ => (fs, none)
  | none =>
    match fsGet fs mf.file_path with
    | none => (fs, none)
    | some contents =>
      let fs1 := fsSet fs (mf.file_path ++ ".bak".data) contents
      match fsGet fs1 mf.file_path with
      | none => (fs1, none)
      | some contents2 =>
          ((fsSet fs1 mf.file_path (rewriteLines mf.lines contents2).1),
            some (rewriteLines mf.lines contents2).2)

def fsC7 : FsState := [("a.java".data, "x\n".data)]

def fsC7bak : FsState :=
  [("a.java.bak".data, "old".data), ("a.java".data, "x\n".data)]

def mfC7 : MatchedFile := ⟨"a.java".data, [⟨0, "y\n".data, [⟨0, 1⟩]⟩]⟩

/-! ## Model of `RgWorker::kill_and_wait` (rg_worker.rs) -/

inductive TryWaitResult where
  | ok : Bool → TryWaitResult
  | err : TryWaitResult
deriving DecidableEq, Repr

inductive WorkerAction where
  | kill : WorkerAction
  | join : WorkerAction
deriving DecidableEq, Repr

def kill_and_wait (tw : TryWaitResult) : List WorkerAction :=
  (if tw = TryWaitResult.err then [WorkerAction.kill] else [])
    ++ [WorkerAction.join]

def kill_and_wait_claim (tw : TryWaitResult) : List WorkerAction :=
  (if tw = TryWaitResult.ok false then [WorkerAction.kill] else [])
    ++ [WorkerAction.join]

/-! ## General lemmas about slices and the span decomposition -/

theorem sliceL_append_drop (v : List Char) (s e : Nat) (h1 : s ≤ e)
    (h2 : e ≤ v.length) : sliceL v s e ++ v.drop e = v.drop s := by
  unfold sliceL
  rw [← List.drop_append_of_le_length]
  · rw [List.take_append_drop]
  · simp [Nat.min_eq_left h2, h1]

theorem validFrom_le {len pos : Nat} {sms : List SubRange}
    (h : validFrom len pos sms = true) : pos ≤ len := by
  induction sms generalizing pos with
  | nil => simpa [validFrom] using h
  | cons sm rest ih =>
      simp only [validFrom, Bool.and_eq_true, decide_eq_true_eq] at h
      exact le_trans (le_trans h.1.1 (le_of_lt h.1.2)) (ih h.2)

theorem lineParts_join {v : List Char} {pos : Nat} {sms : List SubRange}
    (h : validFrom v.length pos sms = true) :
    ((lineParts v pos sms).map Prod.snd).flatten = v.drop pos := by
  induction sms generalizing pos with
  | nil =>
      simp only [validFrom, decide_eq_true_eq] at h
      by_cases hp : pos = v.length
      · simp [lineParts, hp, List.drop_length]
      · simp [lineParts, hp]
  | cons sm rest ih =>
      simp only [validFrom, Bool.and_eq_true, decide_eq_true_eq] at h
      have hstop : sm.stop ≤ v.length := validFrom_le h.2
      have hj := ih h.2
      by_cases hs : sm.start = pos
      · subst hs
        simp [lineParts, hj]
        exact sliceL_append_drop v sm.start sm.stop (le_of_lt h.1.2) hstop
      · simp only [lineParts, if_neg hs, List.map_cons, List.flatten_cons, hj]
        rw [sliceL_append_drop v sm.start sm.stop (le_of_lt h.1.2) hstop]
        exact sliceL_append_drop v pos sm.start h.1.1
          (le_trans (le_of_lt h.1.2) hstop)

theorem lineParts_matches {v : List Char} {pos : Nat} {sms : List SubRange}
    (h : validFrom v.length pos sms = true) :
    ((lineParts v pos sms).filter Prod.fst).map Prod.snd
      = sms.map (fun sm => sliceL v sm.start sm.stop) := by
  induction sms generalizing pos with
  | nil =>
      by_cases hp : pos = v.length <;> simp [lineParts, hp]
  | cons sm rest ih =>
      simp only [validFrom, Bool.and_eq_true, decide_eq_true_eq] at h
      by_cases hs : sm.start = pos <;>
        simp [lineParts, hs, List.filter, ih h.2]

theorem noAdjacentGaps_cons_true {x : List Char}
    {r : List (Bool × List Char)} :
    noAdjacentGaps ((true, x) :: r) = noAdjacentGaps r := by
  cases r <;> simp [noAdjacentGaps]

theorem lineParts_noAdjacentGaps {v : List Char} {pos : Nat}
    {sms : List SubRange} :
    noAdjacentGaps (lineParts v pos sms) = true := by
  induction sms generalizing pos with
  | nil =>
      by_cases hp : pos = v.length <;> simp [lineParts, hp, noAdjacentGaps]
  | cons sm rest ih =>
      by_cases hs : sm.start = pos
      · simp only [lineParts, if_pos hs, noAdjacentGaps_cons_true]
        exact ih
      · simp only [lineParts, if_neg hs, noAdjacentGaps, Bool.or_true,
          Bool.true_and, noAdjacentGaps_cons_true]
        exact ih

/-! ## Claim C5: span decomposition of a line -/

/-- Claim C5, counterexample to strict alternation: the valid line
`"foo bar baz"` with adjacent submatches `0..4` and `4..11` decomposes into
two consecutive match spans, so the spans of `iterate_spans` do not
alternate between unmatched gaps and submatch spans. -/
theorem c5_alternation_counterexample :
    lineC5alt.valid = true ∧ alternatingSpans lineC5alt.iter = false := by
  decide

/-- Claim C5 (amended): for every `Line` satisfying the submatch invariant,
concatenating the texts of `iterate_spans` in order reconstructs the line's
text exactly, the match spans are exactly the slices at the submatch ranges,
and no two unmatched gap spans are adjacent (adjacent match spans may occur,
so the sequence need not strictly alternate). -/
theorem c5_iterate_spans_reconstruct (l : Line) (h : l.valid = true) :
    (l.iter.map Prod.snd).flatten = l.value
    ∧ (l.iter.filter Prod.fst).map Prod.snd
        = l.submatches.map (fun sm => sliceL l.value sm.start sm.stop)
    ∧ noAdjacentGaps l.iter = true := by
  have h2 : validFrom l.value.length 0 l.submatches = true := h
  refine ⟨?_, lineParts_matches h2, lineParts_noAdjacentGaps⟩
  have := lineParts_join h2
  simpa using this

/-- Witness for C5 at a concrete valid line. -/
theorem c5_iterate_spans_reconstruct_witness :
    lineC5w.valid = true
    ∧ ((lineC5w.iter.map Prod.snd).flatten = lineC5w.value
       ∧ (lineC5w.iter.filter Prod.fst).map Prod.snd
           = lineC5w.submatches.map (fun sm => sliceL lineC5w.value sm.start sm.stop)
       ∧ noAdjacentGaps lineC5w.iter = true) :=
  ⟨by decide, c5_iterate_spans_reconstruct lineC5w (by decide)⟩

/-! ## Claim C10: frame property of `MatchedFile::replace` -/

/-- Claim C10: `MatchedFile::replace` keeps the file path, the number of
lines, and each line's line number; only text and submatches may change. -/
theorem c10_matched_file_replace_frame (mf : MatchedFile)
    (r : List Char → List Char) :
    (mf.replace r).file_path = mf.file_path
    ∧ (mf.replace r).lines.length = mf.lines.length
    ∧ (mf.replace r).lines.map Line.num = mf.lines.map Line.num := by
  refine ⟨rfl, by simp [MatchedFile.replace], ?_⟩
  simp only [MatchedFile.replace, List.map_map]
  exact List.map_congr_left (fun l _ => rfl)

/-! ## Lemmas about `Line::replace` -/

theorem sliceL_middle (a b c : List Char) :
    sliceL (a ++ b ++ c) a.length (a.length + b.length) = b := by
  unfold sliceL
  rw [List.append_assoc, List.take_append, List.take_left']
  · rw [List.drop_left]
  · rfl

theorem replace_foldl (f : List Char → List Char)
    (parts : List (Bool × List Char)) :
    ∀ (nv : List Char) (subs : List SubRange),
    parts.foldl (replaceStep f) (nv, nv.length, subs)
      = (nv ++ replacedText f parts,
         (nv ++ replacedText f parts).length,
         subs ++ replacedSubs f nv.length parts) := by
  induction parts with
  | nil => intro nv subs; simp [replacedText, replacedSubs]
  | cons p rest ih =>
      intro nv subs
      match p with
      | (false, t) =>
          simp only [List.foldl_cons, replaceStep]
          rw [show nv.length + t.length = (nv ++ t).length by simp]
          rw [ih (nv ++ t) subs]
          simp [replacedText, replacedSubs, List.append_assoc]
      | (true, t) =>
          simp only [List.foldl_cons, replaceStep]
          by_cases he : (f t).isEmpty
          · simp only [if_pos he]
            rw [ih nv subs]
            have ht : f t = [] := by simpa [List.isEmpty_iff] using he
            simp [replacedText, replacedSubs, he, ht]
          · simp only [if_neg he]
            rw [show nv.length + (f t).length = (nv ++ f t).length by simp]
            have hih := ih (nv ++ f t)
              (subs ++ [SubRange.mk nv.length (nv ++ f t).length])
            rw [hih]
            simp [replacedText, replacedSubs, he, List.append_assoc]

theorem line_replace_eq (l : Line) (f : List Char → List Char) :
    l.replace f
      = ⟨l.num, replacedText f l.iter, replacedSubs f 0 l.iter⟩ := by
  unfold Line.replace
  have := replace_foldl f l.iter [] []
  simp only [List.length_nil] at this
  rw [this]
  simp

theorem validFrom_mono_start {len p q : Nat} {sms : List SubRange}
    (hpq : p ≤ q) (h : validFrom len q sms = true) :
    validFrom len p sms = true := by
  cases sms with
  | nil => simp only [validFrom, decide_eq_true_eq] at h ⊢; omega
  | cons sm rest =>
      simp only [validFrom, Bool.and_eq_true, decide_eq_true_eq] at h ⊢
      exact ⟨⟨le_trans hpq h.1.1, h.1.2⟩, h.2⟩

theorem replacedSubs_valid (f : List Char → List Char) :
    ∀ (parts : List (Bool × List Char)) (pos : Nat),
    validFrom (pos + (replacedText f parts).length) pos
      (replacedSubs f pos parts) = true := by
  intro parts
  induction parts with
  | nil => intro pos; simp [replacedSubs, replacedText, validFrom]
  | cons p rest ih =>
      intro pos
      match p with
      | (false, t) =>
          simp only [replacedSubs, replacedText, List.map_cons, List.flatten_cons,
            if_neg Bool.false_ne_true]
          have := ih (pos + t.length)
          rw [show pos + t.length + (replacedText f rest).length
                = pos + (t ++ replacedText f rest).length by simp; omega] at this
          exact validFrom_mono_start (Nat.le_add_right pos t.length) this
      | (true, t) =>
          by_cases he : (f t).isEmpty
          · have ht : f t = [] := by simpa [List.isEmpty_iff] using he
            simp only [replacedSubs, replacedText, List.map_cons, if_pos rfl,
              List.flatten_cons, if_pos he, ht]
            simpa [replacedText] using ih pos
          · simp only [replacedSubs, replacedText, List.map_cons, if_pos rfl,
              List.flatten_cons, if_neg he]
            simp only [validFrom, Bool.and_eq_true, decide_eq_true_eq]
            refine ⟨⟨le_refl pos, ?_⟩, ?_⟩
            · have : f t ≠ [] := by simpa [List.isEmpty_iff] using he
              have : 0 < (f t).length := List.length_pos.mpr this
              omega
            · have := ih (pos + (f t).length)
              rw [show pos + (f t).length + (replacedText f rest).length
                    = pos + (f t ++ replacedText f rest).length by simp; omega] at this
              simpa [replacedText] using this

theorem replacedSubs_slices (f : List Char → List Char) :
    ∀ (parts : List (Bool × List Char)) (nv : List Char),
    (replacedSubs f nv.length parts).map
        (fun sm => sliceL (nv ++ replacedText f parts) sm.start sm.stop)
      = parts.filterMap
          (fun p => if p.1 && !(f p.2).isEmpty then some (f p.2) else none) := by
  intro parts
  induction parts with
  | nil => intro nv; simp [replacedSubs, replacedText]
  | cons p rest ih =>
      intro nv
      match p with
      | (false, t) =>
          have hrw : nv ++ replacedText f ((false, t) :: rest)
              = (nv ++ t) ++ replacedText f rest := by
            simp [replacedText, List.append_assoc]
          simp only [replacedSubs, hrw, List.filterMap_cons]
          rw [show nv.length + t.length = (nv ++ t).length by simp]
          simp only [ih (nv ++ t)]
          simp
      | (true, t) =>
          by_cases he : (f t).isEmpty
          · have ht : f t = [] := by simpa [List.isEmpty_iff] using he
            have hrw : nv ++ replacedText f ((true, t) :: rest)
                = nv ++ replacedText f rest := by
              simp [replacedText, ht]
            simp only [replacedSubs, if_pos he, hrw, List.filterMap_cons, he,
              Bool.not_true, Bool.and_false, if_neg Bool.false_ne_true]
            exact ih nv
          · have hef : (f t).isEmpty = false := by
              simpa [Bool.not_eq_true] using he
            have hrw : nv ++ replacedText f ((true, t) :: rest)
                = (nv ++ f t) ++ replacedText f rest := by
              simp [replacedText, List.append_assoc]
            rw [hrw]
            have hsubs : replacedSubs f nv.length ((true, t) :: rest)
                = SubRange.mk nv.length (nv.length + (f t).length)
                  :: replacedSubs f (nv.length + (f t).length) rest := by
              simp [replacedSubs, hef]
            have htne : f t ≠ [] := by
              simpa [List.isEmpty_iff] using he
            have hfm : List.filterMap
                  (fun p => if (p.1 && !(f p.2).isEmpty) = true
                    then some (f p.2) else none) ((true, t) :: rest)
                = f t :: List.filterMap
                    (fun p => if (p.1 && !(f p.2).isEmpty) = true
                      then some (f p.2) else none) rest := by
              simp [List.filterMap_cons, hef, htne]
            rw [hsubs, hfm, List.map_cons]
            refine congrArg₂ List.cons (sliceL_middle nv (f t) (replacedText f rest)) ?_
            rw [show nv.length + (f t).length = (nv ++ f t).length by simp]
            exact ih (nv ++ f t)

/-! ## Claim C3: `Line::replace` -/

/-- Claim C3: for every line satisfying the submatch invariant and every
replacement function, `replace` returns the in-order concatenation of
unmatched gap text verbatim and `f(matched_text)` for each submatch;
submatches with an empty replacement are omitted entirely, every other new
submatch covers exactly its emitted replacement text at its offsets in the
new text, and the returned submatches are non-empty and sorted.  The second
conjunct is the concrete scenario: `"0123456789"` with submatch `2..6` and
`"2345" -> "."` yields `"01.6789"` with spans
`[(false,"01"), (true,"."), (false,"6789")]`. -/
theorem c3_line_replace :
    (∀ (l : Line) (f : List Char → List Char), l.valid = true →
      (l.replace f).value = replacedText f l.iter
      ∧ (l.replace f).submatches = replacedSubs f 0 l.iter
      ∧ (l.replace f).submatches.map
          (fun sm => sliceL (l.replace f).value sm.start sm.stop)
          = l.iter.filterMap
              (fun p => if (p.1 && !(f p.2).isEmpty) = true
                then some (f p.2) else none)
      ∧ (l.replace f).valid = true)
    ∧ ((lineC3a.replace replC3a).value = "01.6789".data
       ∧ (lineC3a.replace replC3a).iter
           = [(false, "01".data), (true, ".".data), (false, "6789".data)]) := by
  constructor
  · intro l f _h
    have he := line_replace_eq l f
    refine ⟨by rw [he], by rw [he], ?_, ?_⟩
    · rw [he]
      have := replacedSubs_slices f l.iter []
      simpa using this
    · rw [he]
      unfold Line.valid
      have := replacedSubs_valid f l.iter 0
      simpa using this
  · constructor <;> decide

/-- Witness for C3 at the concrete scenario input. -/
theorem c3_line_replace_witness :
    lineC3a.valid = true
    ∧ ((lineC3a.replace replC3a).value = replacedText replC3a lineC3a.iter
       ∧ (lineC3a.replace replC3a).submatches = replacedSubs replC3a 0 lineC3a.iter
       ∧ (lineC3a.replace replC3a).submatches.map
           (fun sm => sliceL (lineC3a.replace replC3a).value sm.start sm.stop)
           = lineC3a.iter.filterMap
               (fun p => if (p.1 && !(replC3a p.2).isEmpty) = true
                 then some (replC3a p.2) else none)
       ∧ (lineC3a.replace replC3a).valid = true) :=
  ⟨by decide, c3_line_replace.1 lineC3a replC3a (by decide)⟩

/-! ## Claim C6: `Line::adjust_submatches` -/

/-- Claim C6: `adjust_submatches` re-anchors each submatch to
`start + new.start .. start + new.start + len(new)` and drops submatches
whose resulting range is empty; an adjuster that always returns an empty
relative range removes all submatches, making the line indistinguishable
from a pure context line (its span decomposition is a single unmatched
span over the whole text when the text is non-empty). -/
theorem c6_adjust_submatches (l : Line) (f : List Char → SubRange)
    (_h : l.valid = true) :
    (l.adjustSubmatches f).submatches
      = l.submatches.filterMap (reanchored l.value f)
    ∧ ((∀ t, (f t).stop ≤ (f t).start) →
        (l.adjustSubmatches f).submatches = []
        ∧ (l.adjustSubmatches f).iter = (Line.mk l.num l.value []).iter
        ∧ (l.value ≠ [] → (l.adjustSubmatches f).iter = [(false, l.value)])) := by
  have hlen : l.value.length ≠ 0 → ¬(0 = l.value.length) := fun h1 h2 => h1 h2.symm
  constructor
  · unfold Line.adjustSubmatches reanchored
    refine List.filterMap_congr (fun sm _ => ?_)
    dsimp only
    split_ifs with h1 h2 <;> first | rfl | omega
  · intro hf
    have hsub : (l.adjustSubmatches f).submatches = [] := by
      unfold Line.adjustSubmatches
      refine List.filterMap_eq_nil_iff.mpr (fun sm _ => ?_)
      have h0 := hf (sliceL l.value sm.start sm.stop)
      dsimp only
      rw [if_neg (by omega)]
    have hiter : (l.adjustSubmatches f).iter = lineParts l.value 0 [] := by
      unfold Line.iter
      rw [hsub]
      rfl
    refine ⟨hsub, hiter, fun hv => ?_⟩
    rw [hiter]
    unfold lineParts
    rw [if_neg (hlen (by simpa [List.length_eq_zero] using hv))]
    rw [List.drop_zero]

/-- Claim C6, counterexample to the parenthetical: on a (vacuously valid)
line with empty text, the empty-range adjuster removes all submatches but
`iterate_spans` is empty rather than a single unmatched span over the whole
text; the line is still indistinguishable from a pure context line. -/
theorem c6_empty_text_counterexample :
    (Line.mk 0 [] []).valid = true
    ∧ ((Line.mk 0 [] []).adjustSubmatches adjC6zero).iter = []
    ∧ ((Line.mk 0 [] []).adjustSubmatches adjC6zero).iter
        ≠ [(false, (Line.mk 0 [] []).value)] := by
  refine ⟨by decide, rfl, by decide⟩

/-- Witness for C6 at a concrete valid line with the constant empty
adjuster. -/
theorem c6_adjust_submatches_witness :
    lineC6w.valid = true
    ∧ (lineC6w.adjustSubmatches adjC6zero).submatches
        = lineC6w.submatches.filterMap (reanchored lineC6w.value adjC6zero)
    ∧ (lineC6w.adjustSubmatches adjC6zero).submatches = []
    ∧ (lineC6w.adjustSubmatches adjC6zero).iter = [(false, lineC6w.value)] :=
  ⟨by decide,
   (c6_adjust_submatches lineC6w adjC6zero (by decide)).1,
   ((c6_adjust_submatches lineC6w adjC6zero (by decide)).2
     (fun _ => Nat.le_refl 0)).1,
   ((c6_adjust_submatches lineC6w adjC6zero (by decide)).2
     (fun _ => Nat.le_refl 0)).2.2 (by decide)⟩

/-! ## Lemmas about the FQCN matcher -/

theorem dotLowerRun_le (l : List Char) : dotLowerRun l ≤ l.length := by
  induction l with
  | nil => simp [dotLowerRun]
  | cons c cs ih =>
      by_cases h : isDotLower c = true <;> simp [dotLowerRun, h] <;> omega

theorem dotLowerRun_lt {l : List Char} {k : Nat} (h : k < dotLowerRun l) :
    ∃ c, l[k]? = some c ∧ isDotLower c = true := by
  induction l generalizing k with
  | nil => simp [dotLowerRun] at h
  | cons c cs ih =>
      by_cases hc : isDotLower c = true
      · cases k with
        | zero => exact ⟨c, by simp, hc⟩
        | succ k =>
            simp only [dotLowerRun, if_pos hc] at h
            simpa using ih (by omega)
      · simp [dotLowerRun, hc] at h

theorem dotLowerRun_ge {l : List Char} {n : Nat}
    (h : ∀ k, k < n → ∃ c, l[k]? = some c ∧ isDotLower c = true) :
    n ≤ dotLowerRun l := by
  induction n generalizing l with
  | zero => omega
  | succ n ih =>
      obtain ⟨c, hc, hd⟩ := h 0 (by omega)
      cases l with
      | nil => simp at hc
      | cons x xs =>
          simp only [List.getElem?_cons_zero, Option.some.injEq] at hc
          subst hc
          simp only [dotLowerRun, if_pos hd]
          have : n ≤ dotLowerRun xs := by
            refine ih (fun k hk => ?_)
            simpa using h (k + 1) (by omega)
          omega

theorem dotLowerRun_add {l : List Char} {d : Nat}
    (h : ∀ k, k < d → ∃ c, l[k]? = some c ∧ isDotLower c = true) :
    dotLowerRun l = d + dotLowerRun (l.drop d) := by
  induction d generalizing l with
  | zero => simp
  | succ d ih =>
      obtain ⟨c, hc, hd⟩ := h 0 (by omega)
      cases l with
      | nil => simp at hc
      | cons x xs =>
          simp only [List.getElem?_cons_zero, Option.some.injEq] at hc
          subst hc
          simp only [dotLowerRun, if_pos hd, List.drop_succ_cons]
          have := ih (l := xs) (fun k hk => by simpa using h (k + 1) (by omega))
          omega

theorem mem_sCandidates {s : List Char} {i j : Nat} :
    j ∈ sCandidates s i
      ↔ ∃ c, s[i]? = some c ∧ isLowerDigit c = true
          ∧ i + 2 ≤ j ∧ j ≤ i + 1 + dotLowerRun (s.drop (i + 1)) := by
  unfold sCandidates
  by_cases h : i < s.length
  · rw [dif_pos h]
    by_cases hl : isLowerDigit s[i] = true
    · rw [if_pos hl]
      simp only [List.mem_reverse, List.mem_range'_1]
      constructor
      · rintro ⟨h1, h2⟩
        exact ⟨s[i], List.getElem?_eq_getElem h, hl, h1, by omega⟩
      · rintro ⟨c, hc, _, h1, h2⟩
        exact ⟨h1, by omega⟩
    · rw [if_neg hl]
      simp only [List.not_mem_nil, false_iff]
      rintro ⟨c, hc, hlow, _, _⟩
      rw [List.getElem?_eq_getElem h] at hc
      cases hc
      exact hl hlow
  · rw [dif_neg h]
    simp only [List.not_mem_nil, false_iff]
    rintro ⟨c, hc, _, _, _⟩
    rw [List.getElem?_eq_none (by omega)] at hc
    cases hc

theorem mem_sCandidates_bounds {s : List Char} {i j : Nat}
    (h : j ∈ sCandidates s i) : i + 2 ≤ j ∧ j ≤ s.length ∧ i < s.length := by
  obtain ⟨c, hc, _, h1, h2⟩ := mem_sCandidates.mp h
  have hi : i < s.length := by
    by_contra hbig
    rw [List.getElem?_eq_none (by omega)] at hc
    cases hc
  have hrun : dotLowerRun (s.drop (i + 1)) ≤ s.length - (i + 1) := by
    have := dotLowerRun_le (s.drop (i + 1))
    simpa using this
  exact ⟨h1, by omega, hi⟩

theorem sCandidates_eq_nil_of_le {s : List Char} {i : Nat}
    (h : s.length ≤ i) : sCandidates s i = [] := by
  unfold sCandidates
  rw [dif_neg (by omega)]

theorem plusCandsF_eq_nil_of_le {s : List Char} {i : Nat} (f : Nat)
    (h : s.length ≤ i) : plusCandsF s f i = [] := by
  cases f with
  | zero => rfl
  | succ f => simp [plusCandsF, sCandidates_eq_nil_of_le h]

theorem flatMapCongr {α β : Type} {l : List α} {f g : α → List β}
    (h : ∀ a ∈ l, f a = g a) : l.flatMap f = l.flatMap g := by
  induction l with
  | nil => rfl
  | cons a t ih =>
      simp only [List.flatMap_cons]
      rw [h a (by simp), ih (fun x hx => h x (by simp [hx]))]

theorem plusCandsF_stable {s : List Char} :
    ∀ (f g i : Nat), s.length + 1 - i ≤ f → s.length + 1 - i ≤ g →
      plusCandsF s f i = plusCandsF s g i := by
  intro f
  induction f with
  | zero =>
      intro g i hf hg
      have hi : s.length ≤ i := by omega
      rw [plusCandsF_eq_nil_of_le 0 hi, plusCandsF_eq_nil_of_le g hi]
  | succ f ih =>
      intro g i hf hg
      by_cases hi : s.length ≤ i
      · rw [plusCandsF_eq_nil_of_le (f + 1) hi, plusCandsF_eq_nil_of_le g hi]
      · cases g with
        | zero => omega
        | succ g =>
            simp only [plusCandsF]
            refine flatMapCongr (fun j hj => ?_)
            obtain ⟨hj1, hj2, _⟩ := mem_sCandidates_bounds hj
            rw [ih g j (by omega) (by omega)]

theorem plusCands_eq (s : List Char) (i : Nat) :
    plusCands s i
      = (sCandidates s i).flatMap (fun j => plusCands s j ++ [(j, i)]) := by
  have h1 : plusCands s i
      = (sCandidates s i).flatMap
          (fun j => plusCandsF s s.length j ++ [(j, i)]) := rfl
  rw [h1]
  refine flatMapCongr (fun j hj => ?_)
  obtain ⟨hj1, hj2, _⟩ := mem_sCandidates_bounds hj
  show plusCandsF s s.length j ++ [(j, i)]
      = plusCandsF s (s.length + 1) j ++ [(j, i)]
  rw [plusCandsF_stable s.length (s.length + 1) j (by omega) (by omega)]

theorem sCandidates_subset {s : List Char} {i j : Nat}
    (hj : j ∈ sCandidates s i) : sCandidates s j ⊆ sCandidates s i := by
  intro e he
  obtain ⟨ci, hci, hlowi, hij, hjm⟩ := mem_sCandidates.mp hj
  obtain ⟨cj, hcj, hlowj, hje, hem⟩ := mem_sCandidates.mp he
  have hadd : dotLowerRun (s.drop (i + 1))
      = (j - i) + dotLowerRun ((s.drop (i + 1)).drop (j - i)) := by
    refine dotLowerRun_add (fun k hk => ?_)
    rw [List.getElem?_drop]
    by_cases hkj : i + 1 + k < j
    · have : k < dotLowerRun (s.drop (i + 1)) := by omega
      obtain ⟨c, hc1, hc2⟩ := dotLowerRun_lt this
      rw [List.getElem?_drop] at hc1
      exact ⟨c, hc1, hc2⟩
    · have hkeq : i + 1 + k = j := by omega
      rw [hkeq]
      exact ⟨cj, hcj, by simp [isDotLower, hlowj]⟩
  have hdd : (s.drop (i + 1)).drop (j - i) = s.drop (j + 1) := by
    rw [List.drop_drop]
    congr 1
    omega
  rw [hdd] at hadd
  refine mem_sCandidates.mpr ⟨ci, hci, hlowi, by omega, by omega⟩

theorem plusCands_exit_aux {s : List Char} :
    ∀ (n i : Nat), s.length - i < n → ∀ c, c ∈ plusCands s i →
      c.1 ∈ sCandidates s i := by
  intro n
  induction n with
  | zero => intro i h; omega
  | succ n ih =>
      intro i hn c hc
      rw [plusCands_eq, List.mem_flatMap] at hc
      obtain ⟨j, hj, hcj⟩ := hc
      obtain ⟨hb1, hb2, hb3⟩ := mem_sCandidates_bounds hj
      rcases List.mem_append.mp hcj with hdeep | hsingle
      · exact sCandidates_subset hj (ih j (by omega) c hdeep)
      · simp only [List.mem_singleton] at hsingle
        subst hsingle
        exact hj

theorem plusCands_exit {s : List Char} {i : Nat} {c : Nat × Nat}
    (hc : c ∈ plusCands s i) : c.1 ∈ sCandidates s i :=
  plusCands_exit_aux (s.length - i + 1) i (by omega) c hc

theorem sCandidates_pairwise (s : List Char) (i : Nat) :
    (sCandidates s i).Pairwise (· > ·) := by
  unfold sCandidates
  by_cases h : i < s.length
  · rw [dif_pos h]
    by_cases hl : isLowerDigit s[i] = true
    · rw [if_pos hl]
      rw [List.pairwise_reverse]
      exact List.pairwise_lt_range' (i + 2) _
    · rw [if_neg hl]; exact List.Pairwise.nil
  · rw [dif_neg h]; exact List.Pairwise.nil

theorem flatMap_locate {α β : Type} {D : List α} {f : α → List β}
    {l₁ l₂ : List β} {c : β} (h : D.flatMap f = l₁ ++ c :: l₂) :
    ∃ D₁ j D₂ m₁ m₂, D = D₁ ++ j :: D₂ ∧ f j = m₁ ++ c :: m₂
      ∧ l₁ = (D₁.flatMap f) ++ m₁ := by
  induction D generalizing l₁ l₂ with
  | nil =>
      rw [List.flatMap_nil] at h
      have hlen := congrArg List.length h
      simp only [List.length_nil, List.length_append, List.length_cons] at hlen
      omega
  | cons a D ih =>
      rw [List.flatMap_cons] at h
      rcases List.append_eq_append_iff.mp h with ⟨x, hx1, hx2⟩ | ⟨x, hx1, hx2⟩
      · -- l₁ = f a ++ x and D.flatMap f = x ++ c :: l₂
        obtain ⟨D₁, j, D₂, m₁, m₂, h1, h2, h3⟩ := ih hx2
        refine ⟨a :: D₁, j, D₂, m₁, m₂, by simp [h1], h2, ?_⟩
        rw [hx1, h3]
        simp [List.flatMap_cons, List.append_assoc]
      · -- f a = l₁ ++ x and c :: l₂ = x ++ D.flatMap f
        cases x with
        | nil =>
            obtain ⟨D₁, j, D₂, m₁, m₂, h1, h2, h3⟩ :=
              ih (show D.flatMap f = [] ++ c :: l₂ by simpa using hx2.symm)
            refine ⟨a :: D₁, j, D₂, m₁, m₂, by simp [h1], h2, ?_⟩
            simp only [List.append_nil] at hx1
            have h4 := List.append_eq_nil.mp h3.symm
            rw [List.flatMap_cons, h4.1, h4.2]
            simp [hx1]
        | cons c0 x' =>
            injection hx2 with hc0 hl2
            refine ⟨[], a, D, l₁, x', rfl, ?_, by simp⟩
            rw [hx1, hc0]

theorem filterMap_locate {α β : Type} {L : List α} {g : α → Option β}
    {l₁ l₂ : List β} {c : β} (h : L.filterMap g = l₁ ++ c :: l₂) :
    ∃ L₁ x L₂, L = L₁ ++ x :: L₂ ∧ g x = some c ∧ L₁.filterMap g = l₁ := by
  induction L generalizing l₁ l₂ with
  | nil =>
      rw [List.filterMap_nil] at h
      have hlen := congrArg List.length h
      simp only [List.length_nil, List.length_append, List.length_cons] at hlen
      omega
  | cons a L ih =>
      rw [List.filterMap_cons] at h
      cases hg : g a with
      | none =>
          rw [hg] at h
          obtain ⟨L₁, x, L₂, h1, h2, h3⟩ := ih h
          exact ⟨a :: L₁, x, L₂, by simp [h1], h2, by simp [List.filterMap_cons, hg, h3]⟩
      | some b =>
          rw [hg] at h
          cases l₁ with
          | nil =>
              injection h with hb hrest
              subst hb
              exact ⟨[], a, L, rfl, hg, rfl⟩
          | cons b0 l₁ =>
              injection h with hb hrest
              subst hb
              obtain ⟨L₁, x, L₂, h1, h2, h3⟩ := ih hrest
              exact ⟨a :: L₁, x, L₂, by simp [h1], h2,
                by simp [List.filterMap_cons, hg, h3]⟩

theorem plusCands_single_before {s : List Char} {i : Nat}
    {l₁ l₂ : List (Nat × Nat)} {c : Nat × Nat}
    (h : plusCands s i = l₁ ++ c :: l₂) (hne : c.2 ≠ i) :
    (c.1, i) ∈ l₁ := by
  rw [plusCands_eq] at h
  obtain ⟨D₁, j, D₂, m₁, m₂, hD, hblock, hl₁⟩ := flatMap_locate h
  have hc_mem : c ∈ plusCands s j ∨ c = (j, i) := by
    have : c ∈ plusCands s j ++ [(j, i)] := by rw [hblock]; simp
    simpa using this
  rcases hc_mem with hdeep | hsingle
  · have hjmem : j ∈ sCandidates s i := by rw [hD]; simp
    have he_j : c.1 ∈ sCandidates s j := plusCands_exit hdeep
    have he_i : c.1 ∈ sCandidates s i := sCandidates_subset hjmem he_j
    have hej : j + 2 ≤ c.1 := (mem_sCandidates_bounds he_j).1
    have hpw := sCandidates_pairwise s i
    rw [hD] at hpw he_i
    have hpw2 := (List.pairwise_append.mp hpw).2.1
    have he_D₁ : c.1 ∈ D₁ := by
      rcases List.mem_append.mp he_i with h1 | h2
      · exact h1
      · exfalso
        rcases List.mem_cons.mp h2 with h3 | h4
        · omega
        · have := (List.pairwise_cons.mp hpw2).1 c.1 h4
          omega
    have hmem : (c.1, i) ∈ D₁.flatMap (fun j => plusCands s j ++ [(j, i)]) :=
      List.mem_flatMap.mpr ⟨c.1, he_D₁, by simp⟩
    rw [hl₁]
    exact List.mem_append.mpr (Or.inl hmem)
  · exact absurd (by rw [hsingle]) hne

theorem fqcn_new_inversion {s : List Char} {fq : Fqcn}
    (h : Fqcn.new s = some fq) :
    ∃ e, fq = ⟨s, ⟨0, e⟩, ⟨e + 1, s.length⟩⟩
      ∧ s[e]? = some '.'
      ∧ e ∈ sCandidates s 0
      ∧ isUpperIdentB (s.drop (e + 1)) = true := by
  unfold Fqcn.new at h
  rcases hFC : fqcnCaptures s with - | ⟨g2opt, g3opt⟩
  · rw [hFC] at h
    exact Option.noConfusion h
  rcases g2opt with - | g2
  · rw [hFC] at h
    exact Option.noConfusion h
  rcases g3opt with - | g3
  · rw [hFC] at h
    exact Option.noConfusion h
  rw [hFC] at h
  injection h with h
  unfold fqcnCaptures at hFC
  cases hfs : (aCands s).findSome?
      (fun c => (tailCaps s (c.1 + 1)).map (fun g3 => (some (c.2, c.1), g3))) with
  | none =>
      rw [hfs] at hFC
      exfalso
      cases htc : tailCaps s 0 with
      | none => rw [htc] at hFC; exact Option.noConfusion hFC
      | some y =>
          rw [htc] at hFC
          simp only [Option.map_some'] at hFC
          injection hFC with hFC
          have := congrArg Prod.fst hFC
          exact Option.noConfusion this
  | some r =>
      rw [hfs] at hFC
      injection hFC with hFC
      subst hFC
      rw [List.findSome?_eq_some_iff] at hfs
      obtain ⟨l₁, c, l₂, hsplit, hFc, hprefix⟩ := hfs
      cases htc : tailCaps s (c.1 + 1) with
      | none => rw [htc] at hFc; exact Option.noConfusion hFc
      | some y =>
          rw [htc, Option.map_some'] at hFc
          injection hFc with hFc
          have hg2 : (some (c.2, c.1) : Option (Nat × Nat)) = some g2 :=
            congrArg Prod.fst hFc
          have hy : y = some g3 := congrArg Prod.snd hFc
          injection hg2 with hg2
          subst hy
          -- locate c inside plusCands s 0
          unfold aCands at hsplit
          obtain ⟨L₁, x, L₂, hL, hgx, hfm⟩ := filterMap_locate hsplit
          have hxc : x = c ∧ s[c.1]? = some '.' := by
            by_cases hdotx : s[x.1]? = some '.'
            · rw [if_pos hdotx] at hgx
              injection hgx with hgx
              subst hgx
              exact ⟨rfl, hdotx⟩
            · rw [if_neg hdotx] at hgx
              exact Option.noConfusion hgx
          obtain ⟨hxc1, hdot⟩ := hxc
          subst hxc1
          -- the winning candidate starts group 2 at 0
          have hc2 : x.2 = 0 := by
            by_contra hne
            have hbefore := plusCands_single_before hL hne
            have hmemfm : (x.1, 0) ∈ List.filterMap
                (fun c => if s[c.1]? = some '.' then some c else none) L₁ := by
              refine List.mem_filterMap.mpr ⟨(x.1, 0), hbefore, ?_⟩
              rw [if_pos hdot]
            rw [hfm] at hmemfm
            have hnone := hprefix (x.1, 0) hmemfm
            rw [htc] at hnone
            simp at hnone
          -- membership and tail facts
          have hmem0 : x ∈ plusCands s 0 := by
            rw [hL]
            simp
          have hexit := plusCands_exit hmem0
          -- unpack the tail pattern
          cases hdrop : s.drop (x.1 + 1) with
          | nil =>
              exfalso
              unfold tailCaps at htc
              rw [hdrop] at htc
              have htc2 : (some (none : Option (Nat × Nat))
                  : Option (Option (Nat × Nat))) = some (some g3) := htc
              injection htc2 with htc2
              exact Option.noConfusion htc2
          | cons c0 cs =>
              unfold tailCaps at htc
              rw [hdrop] at htc
              have htc2 : (if (isUpperAZ c0 && cs.all isWordChar) = true
                  then some (some (x.1 + 1, s.length)) else none)
                  = some (some g3) := htc
              by_cases hcond : (isUpperAZ c0 && cs.all isWordChar) = true
              · rw [if_pos hcond] at htc2
                injection htc2 with htc2
                injection htc2 with htc2
                have hg21 : g2.1 = x.2 := by rw [← hg2]
                have hg22 : g2.2 = x.1 := by rw [← hg2]
                have hg31 : g3.1 = x.1 + 1 := by rw [← htc2]
                have hg32 : g3.2 = s.length := by rw [← htc2]
                refine ⟨x.1, ?_, hdot, hexit, ?_⟩
                · rw [← h]
                  simp [hg21, hg22, hg31, hg32, hc2]
                · rw [hdrop]
                  simpa [isUpperIdentB] using hcond
              · rw [if_neg hcond] at htc2
                exact Option.noConfusion htc2

theorem isSegB_all_dotLower {w : List Char} (h : isSegB w = true) :
    w.all isDotLower = true := by
  cases w with
  | nil => simp [isSegB] at h
  | cons c wr =>
      simp only [isSegB, Bool.and_eq_true] at h
      simp only [List.all_cons, Bool.and_eq_true]
      exact ⟨by simp [isDotLower, h.1.1], h.2⟩

theorem segDotPlus_iff {p : List Char} :
    SegDotPlus p ↔ ∃ w, p = w ++ ['.'] ∧ isSegB w = true := by
  constructor
  · intro h
    induction h with
    | one w hw => exact ⟨w, rfl, hw⟩
    | cons w rest hw _hrest ih =>
        obtain ⟨w2, hw2, hseg2⟩ := ih
        refine ⟨w ++ '.' :: w2, by rw [hw2]; simp, ?_⟩
        cases w with
        | nil => simp [isSegB] at hw
        | cons c wr =>
            simp only [isSegB, Bool.and_eq_true] at hw
            simp only [List.cons_append, isSegB, Bool.and_eq_true]
            refine ⟨⟨hw.1.1, by simp⟩, ?_⟩
            simp only [List.all_append, Bool.and_eq_true, List.all_cons]
            exact ⟨hw.2, by decide, isSegB_all_dotLower hseg2⟩
  · rintro ⟨w, rfl, hw⟩
    exact SegDotPlus.one w hw

theorem fqcn_grammar_of_isSome {s : List Char}
    (h : (Fqcn.new s).isSome = true) : fqcnGrammarBoth s := by
  obtain ⟨fq, heq⟩ := Option.isSome_iff_exists.mp h
  obtain ⟨e, hfq, hdot, hsc, hup⟩ := fqcn_new_inversion heq
  obtain ⟨c0, h0, hlow, h2e, hrun⟩ := mem_sCandidates.mp hsc
  simp only [Nat.zero_add] at h2e hrun
  have helt : e < s.length := by
    by_contra hh
    rw [List.getElem?_eq_none (by omega)] at hdot
    exact Option.noConfusion hdot
  have hse : s[e] = '.' := by
    rw [List.getElem?_eq_getElem helt] at hdot
    injection hdot
  have hsplit : s = s.take e ++ '.' :: s.drop (e + 1) := by
    conv_lhs => rw [← List.take_append_drop e s]
    congr 1
    rw [List.drop_eq_getElem_cons helt, hse]
  refine ⟨s.take e ++ ['.'], s.drop (e + 1), ?_, SegDotPlus.one _ ?_, hup⟩
  · conv_lhs => rw [hsplit]
    simp
  · cases hs : s with
    | nil => rw [hs] at helt; simp at helt
    | cons a s2 =>
        rw [List.take_cons (by omega)]
        have ha : a = c0 := by
          rw [hs] at h0
          simp only [List.getElem?_cons_zero, Option.some.injEq] at h0
          exact h0
        have hs2len : e - 1 ≤ s2.length := by
          rw [hs] at helt
          simp only [List.length_cons] at helt
          omega
        simp only [isSegB, Bool.and_eq_true]
        refine ⟨⟨by rw [ha]; exact hlow, ?_⟩, ?_⟩
        · cases htk : List.take (e - 1) s2 with
          | nil =>
              exfalso
              have := congrArg List.length htk
              simp only [List.length_take, List.length_nil] at this
              omega
          | cons y ys => rfl
        · rw [List.all_eq_true]
          intro x hx
          obtain ⟨n, hn, hxn⟩ := List.getElem_of_mem hx
          have hnlt : n < e - 1 := by
            have := hn
            simp only [List.length_take] at this
            omega
          have hdl : n < dotLowerRun (s.drop 1) := by
            have : e - 1 ≤ dotLowerRun (s.drop 1) := by omega
            omega
          obtain ⟨c, hc1, hc2⟩ := dotLowerRun_lt hdl
          rw [hs] at hc1
          simp only [List.drop_succ_cons, List.drop_zero] at hc1
          rw [List.getElem_take] at hxn
          have : s2[n]? = some x := by
            rw [List.getElem?_eq_getElem (by omega)]
            rw [hxn]
          rw [this] at hc1
          injection hc1 with hc1
          rw [← hc1] at hc2
          rw [← hxn] at hc2 ⊢
          exact hc2

theorem fqcn_new_isSome_of_grammar {s : List Char}
    (h : fqcnGrammarBoth s) : (Fqcn.new s).isSome = true := by
  obtain ⟨p, i, rfl, hp, hi⟩ := h
  obtain ⟨w, rfl, hw⟩ := segDotPlus_iff.mp hp
  cases i with
  | nil => simp [isUpperIdentB] at hi
  | cons c0 cs =>
  cases w with
  | nil => simp [isSegB] at hw
  | cons w0 wr =>
  simp only [isSegB, Bool.and_eq_true] at hw
  obtain ⟨⟨hlow, hne⟩, hall⟩ := hw
  simp only [isUpperIdentB, Bool.and_eq_true] at hi
  have hwr : 1 ≤ wr.length := by
    cases wr with
    | nil => simp at hne
    | cons a b => simp
  rw [show ((w0 :: wr) ++ ['.']) ++ (c0 :: cs)
      = (w0 :: wr) ++ '.' :: (c0 :: cs) by simp]
  have h0 : ((w0 :: wr) ++ '.' :: (c0 :: cs))[0]? = some w0 := by
    simp
  have hdrop1 : ((w0 :: wr) ++ '.' :: (c0 :: cs)).drop 1
      = wr ++ '.' :: (c0 :: cs) := by
    simp
  have hrunge : wr.length + 1
      ≤ dotLowerRun (wr ++ '.' :: (c0 :: cs)) := by
    refine dotLowerRun_ge (fun k hk => ?_)
    by_cases hklt : k < wr.length
    · rw [List.getElem?_append_left hklt]
      refine ⟨wr[k], List.getElem?_eq_getElem hklt, ?_⟩
      exact List.all_eq_true.mp hall _ (List.getElem_mem hklt)
    · have hkeq : k = wr.length := by omega
      subst hkeq
      rw [List.getElem?_append_right (le_refl _)]
      simp only [Nat.sub_self, List.getElem?_cons_zero]
      exact ⟨'.', rfl, by decide⟩
  have he : (w0 :: wr).length ∈ sCandidates ((w0 :: wr) ++ '.' :: (c0 :: cs)) 0 := by
    refine mem_sCandidates.mpr ⟨w0, h0, hlow, ?_, ?_⟩
    · simp only [List.length_cons]
      omega
    · rw [show (0 : Nat) + 1 = 1 from rfl, hdrop1]
      simp only [List.length_cons]
      omega
  have hdott : ((w0 :: wr) ++ '.' :: (c0 :: cs))[(w0 :: wr).length]?
      = some '.' := by
    rw [List.getElem?_append_right (le_refl _)]
    simp
  have hmemP : ((w0 :: wr).length, 0)
      ∈ plusCands ((w0 :: wr) ++ '.' :: (c0 :: cs)) 0 := by
    rw [plusCands_eq]
    exact List.mem_flatMap.mpr ⟨(w0 :: wr).length, he, by simp⟩
  have hmemA : ((w0 :: wr).length, 0)
      ∈ aCands ((w0 :: wr) ++ '.' :: (c0 :: cs)) := by
    unfold aCands
    exact List.mem_filterMap.mpr ⟨((w0 :: wr).length, 0), hmemP, if_pos hdott⟩
  have hdropt : ((w0 :: wr) ++ '.' :: (c0 :: cs)).drop ((w0 :: wr).length + 1)
      = c0 :: cs := by
    rw [show (w0 :: wr) ++ '.' :: (c0 :: cs)
        = ((w0 :: wr) ++ ['.']) ++ (c0 :: cs) by simp]
    exact List.drop_left' (by simp)
  have htailt : tailCaps ((w0 :: wr) ++ '.' :: (c0 :: cs)) ((w0 :: wr).length + 1)
      = some (some ((w0 :: wr).length + 1,
          ((w0 :: wr) ++ '.' :: (c0 :: cs)).length)) := by
    unfold tailCaps
    rw [hdropt]
    exact if_pos (by simp [hi.1, hi.2])
  have hFsome : ((aCands ((w0 :: wr) ++ '.' :: (c0 :: cs))).findSome?
      (fun c => (tailCaps ((w0 :: wr) ++ '.' :: (c0 :: cs)) (c.1 + 1)).map
        (fun g3 => (some (c.2, c.1), g3)))).isSome = true := by
    refine List.findSome?_isSome_iff.mpr ⟨((w0 :: wr).length, 0), hmemA, ?_⟩
    have hmap : (Option.map
        (fun g3 => (some ((0 : Nat), (w0 :: wr).length), g3))
        (tailCaps ((w0 :: wr) ++ '.' :: (c0 :: cs))
          ((w0 :: wr).length + 1))).isSome = true := by
      rw [htailt]
      rfl
    exact hmap
  obtain ⟨r, hr0⟩ := Option.isSome_iff_exists.mp hFsome
  have hr1 := hr0
  rw [List.findSome?_eq_some_iff] at hr1
  obtain ⟨l₁, c, l₂, hsplit, hFc, _hpre⟩ := hr1
  cases htc : tailCaps ((w0 :: wr) ++ '.' :: (c0 :: cs)) (c.1 + 1) with
  | none =>
      rw [htc] at hFc
      exact absurd hFc (by simp)
  | some y =>
      rw [htc, Option.map_some'] at hFc
      cases y with
      | none =>
          exfalso
          have hcA : c ∈ aCands ((w0 :: wr) ++ '.' :: (c0 :: cs)) := by
            rw [hsplit]; simp
          have hdotc : ((w0 :: wr) ++ '.' :: (c0 :: cs))[c.1]? = some '.' := by
            obtain ⟨x, hx, hgx⟩ := List.mem_filterMap.mp hcA
            by_cases hd : ((w0 :: wr) ++ '.' :: (c0 :: cs))[x.1]? = some '.'
            · rw [if_pos hd] at hgx
              injection hgx with hgx
              rw [← hgx]
              exact hd
            · rw [if_neg hd] at hgx
              exact Option.noConfusion hgx
          have hc1lt : c.1 < ((w0 :: wr) ++ '.' :: (c0 :: cs)).length := by
            by_contra hh
            rw [List.getElem?_eq_none (by omega)] at hdotc
            exact Option.noConfusion hdotc
          have hdrop0 : ((w0 :: wr) ++ '.' :: (c0 :: cs)).drop (c.1 + 1) = [] := by
            unfold tailCaps at htc
            cases hd : ((w0 :: wr) ++ '.' :: (c0 :: cs)).drop (c.1 + 1) with
            | nil => rfl
            | cons z zs =>
                exfalso
                rw [hd] at htc
                have htc3 : (if (isUpperAZ z && zs.all isWordChar) = true
                    then some (some (c.1 + 1,
                      ((w0 :: wr) ++ '.' :: (c0 :: cs)).length))
                    else none) = some (none : Option (Nat × Nat)) := htc
                by_cases hcz : (isUpperAZ z && zs.all isWordChar) = true
                · rw [if_pos hcz] at htc3
                  injection htc3 with htc3
                  exact Option.noConfusion htc3
                · rw [if_neg hcz] at htc3
                  exact Option.noConfusion htc3
          have hlenle : ((w0 :: wr) ++ '.' :: (c0 :: cs)).length ≤ c.1 + 1 := by
            have := congrArg List.length hdrop0
            simp only [List.length_drop, List.length_nil] at this
            omega
          have hzz : ∃ z, (c0 :: cs).getLast? = some z := by
            rw [List.getLast?_eq_getElem?]
            simp only [List.length_cons, Nat.add_sub_cancel]
            exact ⟨(c0 :: cs)[cs.length], List.getElem?_eq_getElem (by simp)⟩
          obtain ⟨z, hzz⟩ := hzz
          have hgl2 : ((w0 :: wr) ++ '.' :: (c0 :: cs)).getLast? = some z := by
            rw [show (w0 :: wr) ++ '.' :: (c0 :: cs)
                = ((w0 :: wr) ++ ['.']) ++ (c0 :: cs) by simp]
            rw [List.getLast?_append, hzz]
            rfl
          have hgl : ((w0 :: wr) ++ '.' :: (c0 :: cs)).getLast? = some '.' := by
            rw [List.getLast?_eq_getElem?]
            have hceq : ((w0 :: wr) ++ '.' :: (c0 :: cs)).length - 1 = c.1 := by
              omega
            rw [hceq]
            exact hdotc
          rw [hgl2] at hgl
          injection hgl with hgl
          have hzmem := List.mem_of_getLast?_eq_some hzz
          rcases List.mem_cons.mp hzmem with h1 | h2
          · have hu := hi.1
            rw [← h1, hgl] at hu
            exact absurd hu (by decide)
          · have hword := List.all_eq_true.mp hi.2 _ h2
            rw [hgl] at hword
            exact absurd hword (by decide)
      | some g3 =>
          injection hFc with hFc
          unfold Fqcn.new fqcnCaptures
          rw [hr0, ← hFc]
          rfl

/-! ## Claims C4 and C9: the FQCN parser -/

/-- Claim C4, counterexample: `"Baz"` matches the spec grammar (both the
package prefix and the capitalized identifier are optional, here the package
is absent) yet `Fqcn::new` returns `None`, because `captures.get(2)?`
requires the package group to be present. -/
theorem c4_grammar_counterexample :
    fqcnGrammar ("Baz".data) ∧ Fqcn.new ("Baz".data) = none := by
  constructor
  · exact ⟨[], "Baz".data, rfl, Or.inl rfl, Or.inr (by decide)⟩
  · decide

/-- Claim C4 (amended): `Fqcn::new` returns `Some` exactly on the strings of
the grammar where both the dotted lowercase package prefix and the trailing
capitalized identifier are present; any other string — including
grammar-conformant strings missing either part, strings missing the trailing
capitalized segment, and strings with extra trailing characters — yields
`None`, as an absence rather than an error. -/
theorem c4_parse_iff_grammar (s : List Char) :
    (Fqcn.new s).isSome = true ↔ fqcnGrammarBoth s :=
  ⟨fqcn_grammar_of_isSome, fqcn_new_isSome_of_grammar⟩

/-- Claim C9, counterexample to the trailing-dot guarantee: on input
`"ab..C"` the backtracking match captures package `"ab."`, which ends with a
dot. -/
theorem c9_trailing_dot_counterexample :
    (Fqcn.new ("ab..C".data)).map Fqcn.package = some ("ab.".data)
    ∧ (Fqcn.new ("ab..C".data)).map (fun fq => fq.package.getLast?)
        = some (some '.') := by
  constructor
  · decide
  · decide

/-- Claim C9 (amended): whenever parsing returns `Some`, the package and
identifier are substrings of the exact input, the value is
`package ++ "." ++ ident` (both parts are always present in a successful
parse), and the package can end with a dot only when the value contains two
consecutive dots. -/
theorem c9_package_ident_structure (s : List Char) (fq : Fqcn)
    (h : Fqcn.new s = some fq) :
    fq.value = s
    ∧ (∃ pre post, s = pre ++ fq.package ++ post)
    ∧ (∃ pre post, s = pre ++ fq.ident ++ post)
    ∧ s = fq.package ++ '.' :: fq.ident
    ∧ (fq.package.getLast? = some '.' →
        ∃ pre post, s = pre ++ '.' :: '.' :: post) := by
  obtain ⟨e, hfq, hdot, hsc, hup⟩ := fqcn_new_inversion h
  obtain ⟨c0, h0, hlow, h2e, hrun⟩ := mem_sCandidates.mp hsc
  simp only [Nat.zero_add] at h2e hrun
  have helt : e < s.length := by
    by_contra hh
    rw [List.getElem?_eq_none (by omega)] at hdot
    exact Option.noConfusion hdot
  have hse : s[e] = '.' := by
    rw [List.getElem?_eq_getElem helt] at hdot
    injection hdot
  have hpkg : fq.package = s.take e := by
    rw [hfq]
    unfold Fqcn.package sliceL
    simp
  have hident : fq.ident = s.drop (e + 1) := by
    rw [hfq]
    unfold Fqcn.ident sliceL
    simp
  have hsplit : s = s.take e ++ '.' :: s.drop (e + 1) := by
    conv_lhs => rw [← List.take_append_drop e s]
    congr 1
    rw [List.drop_eq_getElem_cons helt, hse]
  refine ⟨by rw [hfq], ?_, ?_, ?_, ?_⟩
  · refine ⟨[], s.drop e, ?_⟩
    rw [hpkg]
    simp
  · refine ⟨s.take (e + 1), [], ?_⟩
    rw [hident]
    simp
  · rw [hpkg, hident]
    exact hsplit
  · intro hlast
    rw [hpkg, List.getLast?_eq_getElem?] at hlast
    have hlen_take : (s.take e).length = e := by
      simp only [List.length_take]
      omega
    rw [hlen_take, List.getElem?_take,
      if_pos (show e - 1 < e by omega)] at hlast
    have helt1 : e - 1 < s.length := by omega
    have hse1 : s[e - 1] = '.' := by
      rw [List.getElem?_eq_getElem helt1] at hlast
      injection hlast
    refine ⟨s.take (e - 1), s.drop (e + 1), ?_⟩
    conv_lhs => rw [← List.take_append_drop (e - 1) s]
    congr 1
    rw [List.drop_eq_getElem_cons helt1, hse1]
    congr 1
    rw [show e - 1 + 1 = e by omega]
    rw [List.drop_eq_getElem_cons helt, hse]

/-- Witness for C9 at the concrete input `"foo.bar.Baz"`. -/
theorem c9_package_ident_structure_witness :
    Fqcn.new ("foo.bar.Baz".data) = some fqC9w
    ∧ fqC9w.value = "foo.bar.Baz".data
    ∧ "foo.bar.Baz".data = fqC9w.package ++ '.' :: fqC9w.ident :=
  ⟨by decide,
   (c9_package_ident_structure ("foo.bar.Baz".data) fqC9w (by decide)).1,
   (c9_package_ident_structure ("foo.bar.Baz".data) fqC9w (by decide)).2.2.2.1⟩

/-! ## Claim C1: the FQCN classifier -/

theorem fqcnAdjust_flag1 (V P I t : List Char) :
    (fqcnAdjust V P I t).2.1 = (findSub t V).isSome := by
  unfold fqcnAdjust
  cases h1 : findSub t V
  · cases h2 : findSub t P
    · cases h3 : findSub t I <;> simp
    · simp
  · simp

theorem fqcnAdjust_flag2 (V P I t : List Char) :
    (fqcnAdjust V P I t).2.2
      = (!(findSub t V).isSome && !(findSub t P).isSome
          && (findSub t I).isSome) := by
  unfold fqcnAdjust
  cases h1 : findSub t V
  · cases h2 : findSub t P
    · cases h3 : findSub t I <;> simp [h2]
    · simp [h2]
  · simp

theorem adjustLineFqcn_fold (V P I v : List Char) :
    ∀ (sms : List SubRange) (ls : List SubRange) (b1 b2 : Bool),
    (sms.foldl (fun acc sm =>
      let t := sliceL v sm.start sm.stop
      let a := fqcnAdjust V P I t
      let s2 := sm.start + a.1.start
      let e2 := s2 + (a.1.stop - a.1.start)
      (acc.1 ++ (if s2 < e2 then [SubRange.mk s2 e2] else []),
       acc.2.1 || a.2.1, acc.2.2 || a.2.2)) (ls, b1, b2)).2
      = (b1 || sms.any (fun sm =>
            (findSub (sliceL v sm.start sm.stop) V).isSome),
         b2 || sms.any (fun sm =>
            !(findSub (sliceL v sm.start sm.stop) V).isSome
              && !(findSub (sliceL v sm.start sm.stop) P).isSome
              && (findSub (sliceL v sm.start sm.stop) I).isSome)) := by
  intro sms
  induction sms with
  | nil => intro ls b1 b2; simp
  | cons sm rest ih =>
      intro ls b1 b2
      rw [List.foldl_cons]
      dsimp only
      rw [ih]
      rw [fqcnAdjust_flag1, fqcnAdjust_flag2]
      simp only [List.any_cons, Bool.or_assoc]

theorem adjustLineFqcn_flags (V P I : List Char) (l : Line) :
    (adjustLineFqcn V P I l).2.1 = lineSawFqcn V l
    ∧ (adjustLineFqcn V P I l).2.2 = lineSawIdent V P I l := by
  unfold adjustLineFqcn lineSawFqcn lineSawIdent
  rw [adjustLineFqcn_fold]
  simp

theorem processFileFqcn_eq (V P I : List Char) (mf : MatchedFile) :
    processFileFqcn V P I mf
      = (adjustedFile V P I mf, fileSawPackage V P mf, fileSawImport V mf,
         fileSawIdent V P I mf, fileSawFqcn V mf) := by
  unfold processFileFqcn adjustedFile fileSawPackage fileSawImport
    fileSawIdent fileSawFqcn
  have hfold : ∀ (lines : List Line) (ls : List Line) (b1 b2 b3 b4 : Bool),
      (lines.foldl (fun acc line =>
        let impHere := importStr.isPrefixOf line.value
          && containsSub line.value V
        let pkgHere := !impHere
          && (packageStr.isPrefixOf line.value && containsSub line.value P)
        let a := adjustLineFqcn V P I line
        (acc.1 ++ [a.1], acc.2.1 || pkgHere, acc.2.2.1 || impHere,
         acc.2.2.2.1 || a.2.2, acc.2.2.2.2 || a.2.1))
        (ls, b1, b2, b3, b4))
      = (ls ++ lines.map (fun l => (adjustLineFqcn V P I l).1),
         b1 || lines.any (fun l =>
           !(importStr.isPrefixOf l.value && containsSub l.value V)
           && (packageStr.isPrefixOf l.value && containsSub l.value P)),
         b2 || lines.any (fun l =>
           importStr.isPrefixOf l.value && containsSub l.value V),
         b3 || lines.any (lineSawIdent V P I),
         b4 || lines.any (lineSawFqcn V)) := by
    intro lines
    induction lines with
    | nil => intro ls b1 b2 b3 b4; simp
    | cons line rest ih =>
        intro ls b1 b2 b3 b4
        rw [List.foldl_cons]
        dsimp only
        rw [ih]
        rw [(adjustLineFqcn_flags V P I line).1,
          (adjustLineFqcn_flags V P I line).2]
        simp only [List.any_cons, Bool.or_assoc, List.map_cons,
          List.append_assoc, List.singleton_append]
  rw [hfold]
  simp

/-- Claim C1, counterexample: for FQCN `foo.bar.Baz`, a file whose only line
is a plain code line containing the full FQCN as a submatch is retained by
the classifier even though no line shows package-or-import evidence, so
retention does not require package-or-import evidence AND an
identifier-level match. -/
theorem c1_classifier_counterexample :
    Fqcn.new ("foo.bar.Baz".data) = some fqcnC1
    ∧ (process_matched_file_fqcn fqcnC1 [fileC1full]).length = 1
    ∧ fileC1full.lines.all
        (fun l => !(linePkgOrImportEvidence fqcnC1.value fqcnC1.package l))
        = true := by
  refine ⟨by decide, by decide, by decide⟩

/-- Claim C1 (amended): the classifier keeps a file (with its submatches
narrowed) iff some submatch contains the full FQCN value, or some line is an
`import ` line containing the full value, or both some line is a `package `
line containing the package and some submatch yields a bare-identifier
match.  The claim's concrete scenarios hold: the package-plus-identifier
file is retained and the wrong-import file is discarded. -/
theorem c1_classifier_amended :
    (∀ (fq : Fqcn) (files : List MatchedFile),
      process_matched_file_fqcn fq files
        = files.filterMap (fun mf =>
            if fileSawFqcn fq.value mf || fileSawImport fq.value mf
              || (fileSawPackage fq.value fq.package mf
                  && fileSawIdent fq.value fq.package fq.ident mf)
            then some (adjustedFile fq.value fq.package fq.ident mf)
            else none))
    ∧ (process_matched_file_fqcn fqcnC1 [fileC1keep]).length = 1
    ∧ process_matched_file_fqcn fqcnC1 [fileC1drop] = [] := by
  refine ⟨?_, by decide, by decide⟩
  intro fq files
  unfold process_matched_file_fqcn
  refine List.filterMap_congr (fun mf _ => ?_)
  dsimp only
  rw [processFileFqcn_eq]

/-! ## Claim C2: chunk-invariance of the streaming parser -/

theorem splitOnNl_append (a b : List Char) :
    splitOnNl (a ++ b)
      = ((splitOnNl a).1 ++ (splitOnNl ((splitOnNl a).2 ++ b)).1,
         (splitOnNl ((splitOnNl a).2 ++ b)).2) := by
  induction a with
  | nil => simp [splitOnNl]
  | cons c cs ih =>
      rcases h1 : splitOnNl cs with ⟨cmds1, rest1⟩
      rcases h2 : splitOnNl (rest1 ++ b) with ⟨cmds2, rest2⟩
      have ih2 : splitOnNl (cs ++ b) = (cmds1 ++ cmds2, rest2) := by
        rw [ih, h1, h2]
      by_cases hc : c = '\n'
      · subst hc
        rw [List.cons_append]
        simp [splitOnNl, ih2, h1, h2]
      · rw [List.cons_append]
        cases cmds1 with
        | nil =>
            cases cmds2 with
            | nil => simp [splitOnNl, hc, ih2, h1, h2]
            | cons cmd cmds => simp [splitOnNl, hc, ih2, h1, h2]
        | cons cmd cmds => simp [splitOnNl, hc, ih2, h1, h2]

theorem feedChunk_append (st : StreamState) (a b : List Char) :
    feedChunk (feedChunk st a) b = feedChunk st (a ++ b) := by
  unfold feedChunk
  dsimp only
  rw [← List.append_assoc st.buf a b, splitOnNl_append (st.buf ++ a) b]
  simp [List.append_assoc]

theorem foldl_feedChunk (xs : List (List Char)) :
    ∀ (x : List Char) (st : StreamState),
    (x :: xs).foldl feedChunk st = feedChunk st (x ++ xs.flatten) := by
  induction xs with
  | nil => intro x st; simp
  | cons y ys ih =>
      intro x st
      rw [List.foldl_cons, show (y :: ys).foldl feedChunk (feedChunk st x)
          = feedChunk (feedChunk st x) (y ++ ys.flatten) from ih y (feedChunk st x)]
      rw [feedChunk_append]
      simp [List.append_assoc]

theorem streamCmds_chunked (chunks : List (List Char)) :
    streamCmds chunks = streamCmds [chunks.flatten] := by
  cases chunks with
  | nil => rfl
  | cons x xs =>
      unfold streamCmds
      rw [foldl_feedChunk xs x ⟨[], []⟩]
      simp

theorem splitOnNl_terminated {x : List Char} (hx : '\n' ∉ x)
    (rest : List Char) :
    splitOnNl (x ++ '\n' :: rest)
      = ((x ++ ['\n']) :: (splitOnNl rest).1, (splitOnNl rest).2) := by
  induction x with
  | nil => simp [splitOnNl]
  | cons c cs ih =>
      have hc : c ≠ '\n' := by
        intro hh
        exact hx (by simp [hh])
      have hcs : '\n' ∉ cs := fun hh => hx (by simp [hh])
      rw [List.cons_append]
      rcases hsp : splitOnNl (cs ++ '\n' :: rest) with ⟨cmds1, rest1⟩
      rw [ih hcs] at hsp
      injection hsp with hs1 hs2
      simp [splitOnNl, hc, ih hcs]

theorem splitOnNl_no_nl {x : List Char} (hx : '\n' ∉ x) :
    splitOnNl x = ([], x) := by
  induction x with
  | nil => rfl
  | cons c cs ih =>
      have hc : c ≠ '\n' := by
        intro hh
        exact hx (by simp [hh])
      have hcs : '\n' ∉ cs := fun hh => hx (by simp [hh])
      simp [splitOnNl, hc, ih hcs]

theorem streamCmds_three {b0 m0 e0 : List Char} (hb : '\n' ∉ b0)
    (hm : '\n' ∉ m0) (he : '\n' ∉ e0) :
    streamCmds [(b0 ++ ['\n']) ++ (m0 ++ ['\n']) ++ (e0 ++ ['\n'])]
      = [b0 ++ ['\n'], m0 ++ ['\n'], e0 ++ ['\n']] := by
  unfold streamCmds flushStream
  simp only [List.foldl_cons, List.foldl_nil]
  unfold feedChunk
  simp only [List.nil_append, List.append_assoc, List.singleton_append,
    List.cons_append]
  rw [splitOnNl_terminated hb, splitOnNl_terminated hm,
    splitOnNl_terminated he]
  simp [splitOnNl]

theorem streamCmds_three_unterminated {b0 m0 e0 : List Char} (hb : '\n' ∉ b0)
    (hm : '\n' ∉ m0) (he : '\n' ∉ e0) (hne : e0 ≠ []) :
    streamCmds [(b0 ++ ['\n']) ++ (m0 ++ ['\n']) ++ e0]
      = [b0 ++ ['\n'], m0 ++ ['\n'], e0] := by
  unfold streamCmds flushStream
  simp only [List.foldl_cons, List.foldl_nil]
  unfold feedChunk
  simp only [List.nil_append, List.append_assoc, List.singleton_append,
    List.cons_append]
  rw [splitOnNl_terminated hb, splitOnNl_terminated hm, splitOnNl_no_nl he]
  cases e0 with
  | nil => exact absurd rfl hne
  | cons c cs => simp

theorem runWorker_three {decode : List Char → RgCommand}
    {b m e p t : List Char} {n : Nat} {subs : List SubRange}
    {chunks : List (List Char)}
    (hb : decode b = .begin p) (hm : decode m = .matchRec n t subs)
    (he : decode e = .endRec) (hcmds : streamCmds chunks = [b, m, e]) :
    runWorker decode chunks = [⟨p, [⟨n - 1, t, subs⟩]⟩] := by
  unfold runWorker
  rw [hcmds]
  simp [hb, hm, he, handleCommand]

/-- Claim C2: feeding the byte sequence of one `begin`, one `match` and one
`end` record to the streaming parser, split arbitrarily into chunks
(including splits in the middle of a record), produces exactly one
`MatchedFile` with one line, identical to feeding the same bytes as a
single chunk; and when the final record arrives without its newline
terminator, the parser still flushes the remaining buffered bytes as a
final record at end of stream, with the same result. -/
theorem c2_streaming_chunk_invariance :
    (∀ (decode : List Char → RgCommand) (b0 m0 e0 p t : List Char)
       (n : Nat) (subs : List SubRange) (chunks : List (List Char)),
      '\n' ∉ b0 → '\n' ∉ m0 → '\n' ∉ e0 →
      decode (b0 ++ ['\n']) = .begin p →
      decode (m0 ++ ['\n']) = .matchRec n t subs →
      decode (e0 ++ ['\n']) = .endRec →
      chunks.flatten = (b0 ++ ['\n']) ++ (m0 ++ ['\n']) ++ (e0 ++ ['\n']) →
      runWorker decode chunks = [⟨p, [⟨n - 1, t, subs⟩]⟩]
      ∧ runWorker decode chunks
          = runWorker decode
              [(b0 ++ ['\n']) ++ (m0 ++ ['\n']) ++ (e0 ++ ['\n'])])
    ∧ (∀ (decode : List Char → RgCommand) (b0 m0 e0 p t : List Char)
       (n : Nat) (subs : List SubRange) (chunks : List (List Char)),
      '\n' ∉ b0 → '\n' ∉ m0 → '\n' ∉ e0 → e0 ≠ [] →
      decode (b0 ++ ['\n']) = .begin p →
      decode (m0 ++ ['\n']) = .matchRec n t subs →
      decode e0 = .endRec →
      chunks.flatten = (b0 ++ ['\n']) ++ (m0 ++ ['\n']) ++ e0 →
      runWorker decode chunks = [⟨p, [⟨n - 1, t, subs⟩]⟩]) := by
  constructor
  · intro decode b0 m0 e0 p t n subs chunks hb hm he hdb hdm hde hflat
    have hcmds : streamCmds chunks = [b0 ++ ['\n'], m0 ++ ['\n'], e0 ++ ['\n']] := by
      rw [streamCmds_chunked chunks, hflat]
      exact streamCmds_three hb hm he
    have hcmds1 : streamCmds [(b0 ++ ['\n']) ++ (m0 ++ ['\n']) ++ (e0 ++ ['\n'])]
        = [b0 ++ ['\n'], m0 ++ ['\n'], e0 ++ ['\n']] :=
      streamCmds_three hb hm he
    refine ⟨runWorker_three hdb hdm hde hcmds, ?_⟩
    rw [runWorker_three hdb hdm hde hcmds,
      runWorker_three hdb hdm hde hcmds1]
  · intro decode b0 m0 e0 p t n subs chunks hb hm he hne hdb hdm hde hflat
    have hcmds : streamCmds chunks = [b0 ++ ['\n'], m0 ++ ['\n'], e0] := by
      rw [streamCmds_chunked chunks, hflat]
      exact streamCmds_three_unterminated hb hm he hne
    exact runWorker_three hdb hdm hde hcmds

/-- Witness for C2: `"B\nM\nE\n"` split across two chunks with a boundary
inside the middle record equals the single-chunk run and yields one file
with one line. -/
theorem c2_streaming_chunk_invariance_witness :
    runWorker decodeC2 chunksC2
        = [⟨"f.java".data, [⟨0, "x\n".data, [⟨0, 1⟩]⟩]⟩]
    ∧ runWorker decodeC2 chunksC2 = runWorker decodeC2 ["B\nM\nE\n".data] := by
  have h := c2_streaming_chunk_invariance.1 decodeC2 ("B".data) ("M".data)
    ("E".data) ("f.java".data) ("x\n".data) 1 [⟨0, 1⟩] chunksC2
    (by decide) (by decide) (by decide) (by decide) (by decide) (by decide)
    (by decide)
  refine ⟨h.1, ?_⟩
  rw [h.2]
  have heq : [("B".data ++ ['\n']) ++ ("M".data ++ ['\n'])
      ++ ("E".data ++ ['\n'])] = ["B\nM\nE\n".data] := by decide
  rw [heq]

theorem fsGet_fsSet_same (fs : FsState) (p v : List Char) :
    fsGet (fsSet fs p v) p = some v := by
  induction fs with
  | nil => simp [fsSet, fsGet]
  | cons hd tl ih =>
      obtain ⟨a, w⟩ := hd
      by_cases h : a = p
      · simp [fsSet, fsGet, h]
      · simp [fsSet, fsGet, h, ih]

theorem fsGet_fsSet_other (fs : FsState) (p v q : List Char) (h : q ≠ p) :
    fsGet (fsSet fs p v) q = fsGet fs q := by
  induction fs with
  | nil => simp [fsSet, fsGet, Ne.symm h]
  | cons hd tl ih =>
      obtain ⟨a, w⟩ := hd
      by_cases ha : a = p
      · subst ha
        simp [fsSet, fsGet, Ne.symm h]
      · simp [fsSet, fsGet, ha, ih]

theorem path_ne_bak (p : List Char) : p ≠ p ++ ".bak".data := by
  intro h
  have h1 : p.length = (p ++ ".bak".data).length := congrArg List.length h
  rw [List.length_append] at h1
  have h2 : (".bak".data).length = 4 := rfl
  omega

/-- Claim C7: for every file rewritten by `execute_replacement`: if the
backup path `<path>.bak` already exists the rewrite is aborted with an
error and the file system (in particular the existing backup) is left
unchanged; otherwise the backup copy of the original contents is created
before the original file is mutated — on success the backup holds the
original contents while the target holds the rewritten contents and no
other file changes — and a failure occurring before the write-back step
(the source file unreadable) leaves every file untouched. -/
theorem c7_backup_discipline (fs : FsState) (mf : MatchedFile) :
    (∀ v, fsGet fs (mf.file_path ++ ".bak".data) = some v →
        execute_replacement fs mf = (fs, none))
    ∧ (fsGet fs (mf.file_path ++ ".bak".data) = none →
        fsGet fs mf.file_path = none →
        execute_replacement fs mf = (fs, none))
    ∧ (∀ contents,
        fsGet fs (mf.file_path ++ ".bak".data) = none →
        fsGet fs mf.file_path = some contents →
        fsGet (execute_replacement fs mf).1 (mf.file_path ++ ".bak".data)
            = some contents
        ∧ fsGet (execute_replacement fs mf).1 mf.file_path
            = some (rewriteLines mf.lines contents).1
        ∧ (execute_replacement fs mf).2
            = some (rewriteLines mf.lines contents).2
        ∧ ∀ q, q ≠ mf.file_path → q ≠ mf.file_path ++ ".bak".data →
            fsGet (execute_replacement fs mf).1 q = fsGet fs q) := by
  refine ⟨?_, ?_, ?_⟩
  · intro v hv
    unfold execute_replacement
    rw [hv]
  · intro hbak hfp
    unfold execute_replacement
    rw [hbak, hfp]
  · intro contents hbak hfp
    have hne : mf.file_path ≠ mf.file_path ++ ".bak".data := path_ne_bak _
    have hopen : fsGet (fsSet fs (mf.file_path ++ ".bak".data) contents)
        mf.file_path = some contents := by
      rw [fsGet_fsSet_other fs (mf.file_path ++ ".bak".data) contents
        mf.file_path hne, hfp]
    have hrun : execute_replacement fs mf
        = (fsSet (fsSet fs (mf.file_path ++ ".bak".data) contents)
            mf.file_path (rewriteLines mf.lines contents).1,
          some (rewriteLines mf.lines contents).2) := by
      simp only [execute_replacement, hbak, hfp, hopen]
    refine ⟨?_, ?_, ?_, ?_⟩
    · rw [hrun]
      rw [fsGet_fsSet_other (fsSet fs (mf.file_path ++ ".bak".data) contents)
        mf.file_path (rewriteLines mf.lines contents).1
        (mf.file_path ++ ".bak".data) (Ne.symm hne)]
      exact fsGet_fsSet_same fs (mf.file_path ++ ".bak".data) contents
    · rw [hrun]
      exact fsGet_fsSet_same _ mf.file_path (rewriteLines mf.lines contents).1
    · rw [hrun]
    · intro q hq1 hq2
      rw [hrun]
      rw [fsGet_fsSet_other (fsSet fs (mf.file_path ++ ".bak".data) contents)
        mf.file_path (rewriteLines mf.lines contents).1 q hq1]
      exact fsGet_fsSet_other fs (mf.file_path ++ ".bak".data) contents q hq2

/-- Witness for C7: with a pre-existing `a.java.bak` the rewrite aborts and
the file system is unchanged; without it, the backup receives the original
contents, the target is rewritten line-by-line, and one replacement is
reported. -/
theorem c7_backup_discipline_witness :
    execute_replacement fsC7bak mfC7 = (fsC7bak, none)
    ∧ fsGet (execute_replacement fsC7 mfC7).1 "a.java.bak".data
        = some "x\n".data
    ∧ fsGet (execute_replacement fsC7 mfC7).1 "a.java".data
        = some "y\n".data
    ∧ (execute_replacement fsC7 mfC7).2 = some 1 := by
  have h1 := (c7_backup_discipline fsC7bak mfC7).1 ("old".data) (by decide)
  have h2 := (c7_backup_discipline fsC7 mfC7).2.2 ("x\n".data)
    (by decide) (by decide)
  exact ⟨h1, h2.1, h2.2.1.trans (by decide), h2.2.2.1.trans (by decide)⟩

/-- Claim C8 (code bug): `kill_and_wait` kills the subprocess only when
`try_wait()` returns an error; when the subprocess has not yet exited
(`try_wait()` returns Ok(None), modeled as `TryWaitResult.ok false`) the
code performs no kill at all and joins the reader thread directly, while
the claim requires the subprocess to be terminated first whenever it has
not already exited. -/
theorem c8_kill_and_wait_bug :
    kill_and_wait (TryWaitResult.ok false) = [WorkerAction.join]
    ∧ WorkerAction.kill ∉ kill_and_wait (TryWaitResult.ok false)
    ∧ kill_and_wait_claim (TryWaitResult.ok false)
        = [WorkerAction.kill, WorkerAction.join] := by
  decide
